import Mathlib

/-!
Verification of core components of the build2 build system against its
natural-language specification.  The definitions below are shallow
embeddings translated from the C++ sources (build2/target.cxx,
build2/cxx/compile.cxx, libbuild2/script/parser.cxx,
build2/test/script/parser.cxx); theorems settle the frozen claims.
-/

namespace Build2

/-- Extension slot of a target key or target: none models a null extension
pointer (extension not yet decided), some e models an interned extension
string (possibly empty, meaning no extension). -/
abbrev Ext := Option String

/-- A target as relevant to the target set (build2/target.cxx): the
identity fields (type name, dir, out, name) plus the mutable extension
field. -/
structure Target where
  ttype : String
  dir   : String
  out   : String
  name  : String
  ext   : Ext
  deriving Repr, DecidableEq

/-- A target key (type, dir, out, name, ext), the argument of
target_set::find and target_set::insert. -/
structure TargetKey where
  ttype : String
  dir   : String
  out   : String
  name  : String
  ext   : Ext
  deriving Repr, DecidableEq

/-- Modelled from the spec: the map lookup of target_set (its key hash and
equality live in the target header, which is not among the sources) treats
targets as uniquely identified by their key with the extension handled
separately by find, so equality compares the type, dir, out and name
fields only. -/
def sameId (t : Target) (k : TargetKey) : Bool :=
  t.ttype == k.ttype && t.dir == k.dir && t.out == k.out && t.name == k.name

/-- The process-wide target set, modelled as the list of owned targets in
insertion order. -/
abbrev TargetSet := List Target

/-- Embedding of target_set::find (build2/target.cxx:199): look the key up;
when found and the stored extension differs from the supplied one, assign
the supplied extension provided it is non-null (the l5 diagnostics is not
modelled).  Returns the found target (after the update) and the updated
set. -/
def target_set.find (s : TargetSet) (k : TargetKey) : Option Target × TargetSet :=
  match s with
  | [] => (none, [])
  | t :: ts =>
    if sameId t k then
      let t' := if t.ext ≠ k.ext ∧ k.ext.isSome then { t with ext := k.ext } else t
      (some t', t' :: ts)
    else
      let r := target_set.find ts k
      (r.1, t :: r.2)

/-- Factory used by target_set::insert when the key is not found: construct
the target from the key components (a generic target type factory stores
the supplied extension as is). -/
def factory (k : TargetKey) : Target :=
  { ttype := k.ttype, dir := k.dir, out := k.out, name := k.name, ext := k.ext }

/-- Embedding of target_set::insert (build2/target.cxx:232): find the key;
when absent construct via the factory and emplace.  Returns ((target,
inserted flag), updated set). -/
def target_set.insert (s : TargetSet) (k : TargetKey) : (Target × Bool) × TargetSet :=
  let r := target_set.find s k
  match r.1 with
  | some t => ((t, false), r.2)
  | none   => ((factory k, true), r.2 ++ [factory k])

/-- Inserting into a set whose head does not match the key keeps the head in
place and acts on the tail. -/
theorem insert_cons_not (u : Target) (ts : TargetSet) (k : TargetKey)
    (hs : sameId u k = false) :
    target_set.insert (u :: ts) k =
      ((target_set.insert ts k).1, u :: (target_set.insert ts k).2) := by
  unfold target_set.insert
  cases hfind : (target_set.find ts k).1 with
  | none => simp [target_set.find, hs, hfind]
  | some t => simp [target_set.find, hs, hfind]

/-- The find-time extension update does not change the identity fields. -/
theorem sameId_update (u : Target) (k : TargetKey) (e : Ext) :
    sameId { u with ext := e } k = sameId u k := by
  simp [sameId]

/-- Key identity ignores the extension component of the key. -/
theorem sameId_key_ext (u : Target) (k : TargetKey) (e : Ext) :
    sameId u { k with ext := e } = sameId u k := by
  simp [sameId]

/-- Extension after the find-time update: the supplied extension when
non-null, the stored one otherwise. -/
theorem upd_target_ext (u : Target) (e : Ext) :
    (if u.ext ≠ e ∧ e.isSome then { u with ext := e } else u).ext
      = (if e.isSome then e else u.ext) := by
  by_cases hc : u.ext ≠ e ∧ e.isSome
  · rw [if_pos hc, if_pos hc.2]
  · rw [if_neg hc]
    by_cases hi : e.isSome
    · have he : u.ext = e := by
        by_contra hne
        exact hc ⟨hne, hi⟩
      rw [if_pos hi, he]
    · rw [if_neg hi]

/-- The find-time update preserves key identity. -/
theorem upd_target_id (u : Target) (e : Ext) (k' : TargetKey) :
    sameId (if u.ext ≠ e ∧ e.isSome then { u with ext := e } else u) k'
      = sameId u k' := by
  by_cases hc : u.ext ≠ e ∧ e.isSome
  · rw [if_pos hc, sameId_update]
  · rw [if_neg hc]

/-- Inserting into a set whose head matches the key returns the head (with
the extension update applied) and reports not-inserted. -/
theorem insert_cons_match (u : Target) (ts : TargetSet) (k : TargetKey)
    (hs : sameId u k = true) :
    target_set.insert (u :: ts) k =
      ((if u.ext ≠ k.ext ∧ k.ext.isSome then { u with ext := k.ext } else u, false),
       (if u.ext ≠ k.ext ∧ k.ext.isSome then { u with ext := k.ext } else u) :: ts) := by
  simp [target_set.insert, target_set.find, hs]

/-- C1 (amended): two insert calls with keys of the same identity return a
target of that identity both times, the second reporting not-inserted; the
stored extension after the second call is the second supplied extension
whenever that one is non-null (even when it differs from a non-null stored
one; no error is raised), and is left unchanged when it is null; with
fully equal keys the second call returns exactly the same target. -/
theorem C1_insert_insert (s : TargetSet) (k : TargetKey) (e' : Ext) :
    (target_set.insert (target_set.insert s k).2 { k with ext := e' }).1.2 = false ∧
    sameId (target_set.insert (target_set.insert s k).2 { k with ext := e' }).1.1
      { k with ext := e' } = true ∧
    (target_set.insert (target_set.insert s k).2 { k with ext := e' }).1.1.ext
      = (if e'.isSome then e' else (target_set.insert s k).1.1.ext) ∧
    (e' = k.ext →
      (target_set.insert (target_set.insert s k).2 { k with ext := e' }).1.1
        = (target_set.insert s k).1.1) := by
  induction s with
  | nil =>
    have h1 : target_set.insert [] k = ((factory k, true), [factory k]) := rfl
    have hid : sameId (factory k) { k with ext := e' } = true := by
      simp [sameId, factory]
    rw [h1, insert_cons_match (factory k) [] { k with ext := e' } hid]
    refine ⟨rfl, ?_, ?_, ?_⟩
    · rw [upd_target_id]; exact hid
    · rw [upd_target_ext]
    · intro he
      have hcond : ¬((factory k).ext ≠ ({ k with ext := e' } : TargetKey).ext ∧
          ({ k with ext := e' } : TargetKey).ext.isSome) := by
        intro hcon
        exact hcon.1 (by simp [factory, he])
      rw [if_neg hcond]
  | cons u ts ih =>
    cases hs : sameId u k with
    | false =>
      have hs' : sameId u { k with ext := e' } = false := by
        rw [sameId_key_ext]; exact hs
      rw [insert_cons_not u ts k hs]
      rw [insert_cons_not u _ { k with ext := e' } hs']
      exact ih
    | true =>
      have hs' : sameId u { k with ext := e' } = true := by
        rw [sameId_key_ext]; exact hs
      rw [insert_cons_match u ts k hs]
      have hid1 : sameId
          (if u.ext ≠ k.ext ∧ k.ext.isSome then { u with ext := k.ext } else u)
          { k with ext := e' } = true := by
        rw [upd_target_id]; exact hs'
      rw [insert_cons_match _ ts { k with ext := e' } hid1]
      refine ⟨rfl, ?_, ?_, ?_⟩
      · rw [upd_target_id]; exact hid1
      · rw [upd_target_ext]
      · intro he
        have hcond : ¬((if u.ext ≠ k.ext ∧ k.ext.isSome then { u with ext := k.ext }
            else u).ext ≠ ({ k with ext := e' } : TargetKey).ext ∧
            ({ k with ext := e' } : TargetKey).ext.isSome) := by
          intro hcon
          rcases hcon with ⟨hne, hsome⟩
          have hs2 : e'.isSome = true := hsome
          have hk : k.ext.isSome = true := by rw [← he]; exact hs2
          apply hne
          show (if u.ext ≠ k.ext ∧ k.ext.isSome then { u with ext := k.ext }
            else u).ext = e'
          rw [upd_target_ext, if_pos hk, he]
        rw [if_neg hcond]

/-- C1 counterexample: with a target stored under extension hxx, a second
insert of the same identity supplying the different non-null extension h
is not an error: it returns the stored target as not-inserted and its
extension is silently overwritten to h (the claim predicts an error and
predicts the upgrade to happen only from a null extension). -/
theorem C1_counterexample :
    (target_set.insert
       (target_set.insert [] ⟨"file", "d", "", "foo", some "hxx"⟩).2
       ⟨"file", "d", "", "foo", some "h"⟩).1
      = ({ ttype := "file", dir := "d", out := "", name := "foo", ext := some "h" }, false) := by
  rfl

/-- Target state (build2/target). -/
inductive TState
  | unknown
  | unchanged
  | postponed
  | changed
  | failed
  | group
  deriving Repr, DecidableEq

/-- A recipe value: the distinguished noop, default and group recipes plus
arbitrary other recipe functions identified by a number. -/
inductive Recipe
  | noop
  | dflt
  | grp
  | other (id : Nat)
  deriving Repr, DecidableEq

/-- An action: a (meta-operation, operation) pair. -/
structure Action where
  m : Nat
  o : Nat
  deriving Repr, DecidableEq

/-- The recipe-related state of a target: the action it was last matched
for, the optional recipe (none models the empty std function), the raw
state and the dependents counter. -/
structure TargetR where
  action : Action
  recipe_ : Option Recipe
  raw_state : TState
  dependents : Nat
  deriving Repr, DecidableEq

/-- Embedding of target::recipe (build2/target.cxx:57).  The action
comparison operator is defined in the operation header, which is not among
the sources, so it is passed in as the Boolean relation gt (modelled from
the spec: actions form a partial order deciding whether one action may
override another).  The two asserts are modelled as the none result. -/
def target.recipe (gt : Action → Action → Bool) (t : TargetR) (a : Action)
    (r : Recipe) : Option TargetR :=
  if ¬ (gt a t.action || t.recipe_.isNone) then none
  else
    let override := a == t.action && t.recipe_.isSome
    if override && !(t.recipe_ == some Recipe.noop) then none
    else some
      { action := a
        recipe_ := some r
        raw_state := if r == Recipe.noop then TState.unchanged else TState.unknown
        dependents := if override then t.dependents else 0 }

/-- C5: a recipe reassignment is accepted exactly when the new action is
above the currently matched action in the action order or no recipe is
set, and a reassignment for an equal action additionally requires the
existing recipe to be the noop recipe. -/
theorem C5_recipe_guard (gt : Action → Action → Bool) (t : TargetR) (a : Action)
    (r : Recipe) :
    (target.recipe gt t a r).isSome = true ↔
      ((gt a t.action = true ∨ t.recipe_ = none) ∧
       ((a = t.action ∧ t.recipe_ ≠ none) → t.recipe_ = some Recipe.noop)) := by
  unfold target.recipe
  by_cases h1 : (gt a t.action || t.recipe_.isNone) = true
  · rw [if_neg (by simp [h1])]
    by_cases h2 : ((a == t.action && t.recipe_.isSome)
        && !(t.recipe_ == some Recipe.noop)) = true
    · rw [if_pos h2]
      simp only [Option.isSome_none, Bool.false_eq_true, false_iff]
      intro hcon
      simp only [Bool.and_eq_true, beq_iff_eq, Option.isSome_iff_ne_none,
        Bool.not_eq_true', beq_eq_false_iff_ne, ne_eq] at h2
      exact h2.2 (hcon.2 ⟨h2.1.1, h2.1.2⟩)
    · rw [if_neg h2]
      simp only [Option.isSome_some, true_iff]
      constructor
      · rcases Bool.or_eq_true_iff.mp h1 with h | h
        · exact Or.inl h
        · exact Or.inr (Option.isNone_iff_eq_none.mp h)
      · intro hcon
        by_contra hnoop
        apply h2
        simp only [Bool.and_eq_true, beq_iff_eq, Option.isSome_iff_ne_none,
          Bool.not_eq_true', beq_eq_false_iff_ne, ne_eq]
        exact ⟨⟨hcon.1, hcon.2⟩, hnoop⟩
  · rw [if_pos (by simp [h1])]
    simp only [Option.isSome_none, Bool.false_eq_true, false_iff]
    intro hcon
    rcases hcon.1 with h | h
    · exact h1 (Bool.or_eq_true_iff.mpr (Or.inl h))
    · exact h1 (Bool.or_eq_true_iff.mpr (Or.inr (by simp [h])))

/-- The state of a path target: the extension and the assigned path (the
empty string models an unassigned path, as in the sources). -/
structure PathTarget where
  ext : Ext
  path : String
  deriving Repr, DecidableEq

/-- Embedding of path_target::derive_extension (build2/target.cxx:334).
The target type extension function is passed as tf: none models a type
without an extension function, some v a function returning v (v = none
modelling a null result).  The assert and the no-default-extension fail
are modelled as the none result.  Returns the extension together with the
updated target. -/
def derive_extension (tf : Option Ext) (t : PathTarget) (de : Option String) :
    Option (String × PathTarget) :=
  if de.isSome ∧ tf.isNone then none
  else
    match t.ext with
    | some e => some (e, t)
    | none =>
      let e1 : Ext := match tf with
        | some v => v
        | none => none
      match e1 with
      | some e => some (e, { t with ext := some e })
      | none =>
        match de with
        | some d => some (d, { t with ext := some d })
        | none => none

/-- Embedding of path_target::derive_path (build2/target.cxx:382): derive
the extension, append it to the candidate path when non-empty, then assign
the path when none is stored yet, keep an equal stored path silently and
fail on a differing one.  The error result carries the target state at the
point of failure. -/
def derive_path (tf : Option Ext) (t : PathTarget) (p0 : String)
    (de : Option String) : Except PathTarget (String × PathTarget) :=
  match derive_extension tf t de with
  | none => .error t
  | some (e, t1) =>
    let p := if e ≠ "" then p0 ++ "." ++ e else p0
    if t1.path = "" then .ok (p, { t1 with path := p })
    else if p ≠ t1.path then .error t1
    else .ok (t1.path, t1)

/-- Extension derivation never touches the stored path. -/
theorem derive_extension_path (tf : Option Ext) (t : PathTarget)
    (de : Option String) (e : String) (t1 : PathTarget)
    (h : derive_extension tf t de = some (e, t1)) : t1.path = t.path := by
  unfold derive_extension at h
  by_cases h0 : de.isSome ∧ tf.isNone
  · rw [if_pos h0] at h; cases h
  · rw [if_neg h0] at h
    cases ht : t.ext with
    | some e0 => rw [ht] at h; cases h; rfl
    | none =>
      rw [ht] at h
      cases tf with
      | some v =>
        cases v with
        | some e1 => cases h; rfl
        | none =>
          cases de with
          | some d => cases h; rfl
          | none => cases h
      | none =>
        cases de with
        | some d => cases h; rfl
        | none => cases h

/-- C6: when the target already has a path, a derivation that succeeds
returns exactly the stored path and leaves it unchanged, a derivation
whose candidate path differs from the stored one is a hard error, and
every error leaves the stored path unchanged; when no path is stored yet
the derived path is assigned. -/
theorem C6_derive_path (tf : Option Ext) (t : PathTarget) (p0 : String)
    (de : Option String) :
    (t.path = "" → ∀ ret t', derive_path tf t p0 de = .ok (ret, t') →
       t'.path = ret) ∧
    (t.path ≠ "" →
      (∀ ret t', derive_path tf t p0 de = .ok (ret, t') →
         ret = t.path ∧ t'.path = t.path) ∧
      (∀ e t1, derive_extension tf t de = some (e, t1) →
         (if e ≠ "" then p0 ++ "." ++ e else p0) ≠ t.path →
         derive_path tf t p0 de = .error t1)) ∧
    (∀ t', derive_path tf t p0 de = .error t' → t'.path = t.path) := by
  unfold derive_path
  cases hde : derive_extension tf t de with
  | none =>
    dsimp only
    refine ⟨?_, ?_, ?_⟩
    · intro _ ret t' h
      cases h
    · intro _
      refine ⟨?_, ?_⟩
      · intro ret t' h
        cases h
      · intro e t1 h hne
        cases h
    · intro t' h
      cases h
      rfl
  | some et =>
    obtain ⟨e, t1⟩ := et
    dsimp only
    have hp1 : t1.path = t.path := derive_extension_path tf t de e t1 hde
    by_cases hempty : t1.path = ""
    · rw [if_pos hempty]
      refine ⟨?_, ?_, ?_⟩
      · intro _ ret t' h
        cases h
        rfl
      · intro hne
        exact absurd (hp1.symm.trans hempty) hne
      · intro t' h
        cases h
    · rw [if_neg hempty]
      by_cases hdiff : (if e ≠ "" then p0 ++ "." ++ e else p0) ≠ t1.path
      · rw [if_pos hdiff]
        refine ⟨?_, ?_, ?_⟩
        · intro hp
          exact absurd (hp1.trans hp) hempty
        · intro _
          refine ⟨?_, ?_⟩
          · intro ret t' h
            cases h
          · intro e2 t2 h2 hne2
            cases h2
            rfl
        · intro t' h
          cases h
          exact hp1
      · rw [if_neg hdiff]
        push_neg at hdiff
        refine ⟨?_, ?_, ?_⟩
        · intro hp
          exact absurd (hp1.trans hp) hempty
        · intro _
          refine ⟨?_, ?_⟩
          · intro ret t' h
            cases h
            exact ⟨hp1, hp1⟩
          · intro e2 t2 h2 hne2
            cases h2
            exact absurd (hdiff.trans hp1) hne2
        · intro t' h
          cases h

/-- C6 witness: a target with assigned path foo.o re-derived with the same
candidate is a no-op returning the stored path. -/
theorem C6_witness :
    ("foo.o" = "foo.o" ∧ "foo.o" = "foo.o") :=
  ((C6_derive_path none { ext := some "o", path := "foo.o" } "foo" none).2.1
    (by decide)).1 "foo.o" { ext := some "o", path := "foo.o" } (by rfl)

/-- Decimal digit test (butl digit(), consumed by the test script
parser). -/
def digitChar (c : Char) : Bool := decide ('0' ≤ c) && decide (c ≤ '9')

/-- Embedding of the digits helper of build2/test/script/parser.cxx:150:
true iff the string is non-empty and consists only of decimal digits. -/
def digits (s : String) : Bool := s.data.all digitChar && !(s.data.isEmpty)

/-- Embedding of the pre-parse guard of parse_variable_line
(build2/test/script/parser.cxx:160): in pre-parse mode an assignment,
append or prepend to one of the special alias variables fails with a
parse error. -/
def variable_line_guard (preParse : Bool) (name : String) : Except Unit Unit :=
  if preParse && (name == "*" || name == "~" || digits name) then .error ()
  else .ok ()

/-- C10: a pre-parsed variable line is rejected exactly when its left-hand
name is the asterisk alias, the tilde alias, or a non-empty all-digits
name. -/
theorem C10_special_vars (n : String) :
    variable_line_guard true n = Except.error () ↔
      (n = "*" ∨ n = "~" ∨ (n.data ≠ [] ∧ ∀ c ∈ n.data, '0' ≤ c ∧ c ≤ '9')) := by
  unfold variable_line_guard
  have hcond : (true && (n == "*" || n == "~" || digits n)) = true ↔
      (n = "*" ∨ n = "~" ∨ (n.data ≠ [] ∧ ∀ c ∈ n.data, '0' ≤ c ∧ c ≤ '9')) := by
    simp only [Bool.true_and, Bool.or_eq_true, beq_iff_eq, digits, digitChar,
      Bool.and_eq_true, List.all_eq_true, Bool.not_eq_true',
      List.isEmpty_eq_false, ne_eq, decide_eq_true_eq]
    tauto
  split_ifs with h
  · simpa using hcond.mp h
  · have hneg : ¬(n = "*" ∨ n = "~" ∨ (n.data ≠ [] ∧ ∀ c ∈ n.data, '0' ≤ c ∧ c ≤ '9')) :=
      fun hc => h (hcond.mpr hc)
    simp [hneg]

/-- Modelled from the spec: the depdb line-oriented state file (its
implementation is not among the sources; the spec defines the read and
write state machine).  lines is the current content, pos the index of the
next line, writing the write-mode flag and mtime the file modification
time (a number, with 0 reserved for timestamp_nonexistent). -/
structure Depdb where
  lines : List String
  pos : Nat
  writing : Bool
  mtime : Nat
  deriving Repr, DecidableEq

/-- Modelled from the spec: opening a depdb starts in read mode at the
first line. -/
def Depdb.openDb (ls : List String) (mt : Nat) : Depdb :=
  { lines := ls, pos := 0, writing := false, mtime := mt }

/-- Modelled from the spec: expect compares the argument to the next
stored line; on match it stays in read mode and reports a match, on
mismatch or end of file it writes the line, discards the tail and
transitions to write mode; in write mode it simply appends the line.
Returns the match flag and the new state. -/
def Depdb.expect (d : Depdb) (l : String) : Bool × Depdb :=
  match d.writing with
  | true => (false, { d with lines := d.lines ++ [l], pos := d.pos + 1 })
  | false =>
    match d.lines[d.pos]? with
    | some l' =>
      if l' = l then (true, { d with pos := d.pos + 1 })
      else (false, { d with lines := d.lines.take d.pos ++ [l],
                            pos := d.pos + 1, writing := true })
    | none =>
      (false, { d with lines := d.lines.take d.pos ++ [l],
                       pos := d.pos + 1, writing := true })

/-- Well-formedness of a depdb state: in write mode the position is at the
end of the content, in read mode it is within the content. -/
def Depdb.WF (d : Depdb) : Prop :=
  (d.writing = true → d.lines.length = d.pos) ∧
  (d.writing = false → d.pos ≤ d.lines.length)

/-- A freshly opened depdb is well formed. -/
theorem Depdb.openDb_wf (ls : List String) (mt : Nat) : (Depdb.openDb ls mt).WF :=
  ⟨fun h => by simp [Depdb.openDb] at h, fun _ => Nat.zero_le _⟩

/-- One expect step: well-formedness is preserved, the position advances,
the content up to the position gains exactly the expected line, the mtime
is unchanged, write mode is entered exactly when the step or an earlier
one mismatched, and in write mode every expect reports a mismatch. -/
theorem Depdb.expect_step (d : Depdb) (l : String) (hwf : d.WF) :
    (d.expect l).2.WF ∧
    (d.expect l).2.pos = d.pos + 1 ∧
    (d.expect l).2.lines.take (d.pos + 1) = d.lines.take d.pos ++ [l] ∧
    (d.expect l).2.mtime = d.mtime ∧
    (d.expect l).2.writing = (d.writing || !(d.expect l).1) ∧
    (d.writing = true → (d.expect l).1 = false) := by
  obtain ⟨hw1, hw2⟩ := hwf
  unfold Depdb.expect
  cases hwr : d.writing with
  | true =>
    have hlen : d.lines.length = d.pos := hw1 hwr
    dsimp only
    refine ⟨?_, rfl, ?_, rfl, rfl, fun _ => rfl⟩
    · constructor
      · intro _
        simp [hlen]
      · intro h
        cases h
    · have h1 : d.lines.take d.pos = d.lines := List.take_of_length_le (by omega)
      have h2 : (d.lines ++ [l]).length ≤ d.pos + 1 := by simp [hlen]
      rw [List.take_of_length_le h2, h1]
  | false =>
    have hle : d.pos ≤ d.lines.length := hw2 hwr
    dsimp only
    cases hget : d.lines[d.pos]? with
    | some l' =>
      dsimp only
      by_cases heq : l' = l
      · rw [if_pos heq]
        have hlt : d.pos < d.lines.length := by
          by_contra hc
          rw [List.getElem?_eq_none (by omega)] at hget
          cases hget
        refine ⟨?_, rfl, ?_, rfl, by simp, fun h => by cases h⟩
        · constructor
          · intro h
            cases h
          · intro _
            dsimp only
            omega
        · dsimp only
          rw [List.take_succ, hget]
          simp [heq]
      · rw [if_neg heq]
        have hlen : (d.lines.take d.pos).length = d.pos := by
          rw [List.length_take]
          omega
        refine ⟨?_, rfl, ?_, rfl, by simp, fun h => by cases h⟩
        · constructor
          · intro _
            dsimp only
            simp [hlen]
          · intro h
            cases h
        · dsimp only
          rw [List.take_of_length_le (by simp [hlen])]
    | none =>
      dsimp only
      have hge : d.lines.length ≤ d.pos := by
        by_contra hc
        rw [List.getElem?_eq_getElem (by omega)] at hget
        cases hget
      have hlen : (d.lines.take d.pos).length = d.pos := by
        rw [List.length_take]
        omega
      refine ⟨?_, rfl, ?_, rfl, by simp, fun h => by cases h⟩
      · constructor
        · intro _
          dsimp only
          simp [hlen]
        · intro h
          cases h
      · dsimp only
        rw [List.take_of_length_le (by simp [hlen])]

/-- Sentinel modification time of a file that does not exist. -/
def timestamp_nonexistent : Nat := 0

/-- Embedding of the depdb portion of cxx compile apply for perform_update
(build2/cxx/compile.cxx:206): the four self-describing expect calls in
order (rule name and version, compiler checksum, options checksum, source
path) followed by the forced-update decision.  Returns the depdb after the
four calls, the four match flags, the force flag and the resulting target
mtime. -/
def compile_apply_depdb (dd : Depdb) (checksum opts src : String) (tmtime : Nat) :
    Depdb × (Bool × Bool × Bool × Bool) × Bool × Nat :=
  let r1 := dd.expect "cxx.compile 1"
  let r2 := r1.2.expect checksum
  let r3 := r2.2.expect opts
  let r4 := r3.2.expect src
  let force := r4.2.writing || decide (r4.2.mtime > tmtime)
  (r4.2, (r1.1, r2.1, r3.1, r4.1), force,
   if force then timestamp_nonexistent else tmtime)

/-- C2: for a freshly opened depdb the compile rule records, in order, the
rule line, the compiler checksum, the options checksum and the source
path as the first four lines, and it forces the update (resetting the
target mtime to timestamp_nonexistent) exactly when one of the four
expect calls mismatched or the depdb mtime is newer than the target
mtime. -/
theorem C2_apply_depdb (ls : List String) (mt : Nat) (checksum opts src : String)
    (tmt : Nat) :
    ((compile_apply_depdb (Depdb.openDb ls mt) checksum opts src tmt).1.lines.take 4
       = ["cxx.compile 1", checksum, opts, src]) ∧
    ((compile_apply_depdb (Depdb.openDb ls mt) checksum opts src tmt).2.2.1 = true ↔
      ((compile_apply_depdb (Depdb.openDb ls mt) checksum opts src tmt).2.1.1 = false ∨
       (compile_apply_depdb (Depdb.openDb ls mt) checksum opts src tmt).2.1.2.1 = false ∨
       (compile_apply_depdb (Depdb.openDb ls mt) checksum opts src tmt).2.1.2.2.1 = false ∨
       (compile_apply_depdb (Depdb.openDb ls mt) checksum opts src tmt).2.1.2.2.2 = false ∨
       mt > tmt)) ∧
    ((compile_apply_depdb (Depdb.openDb ls mt) checksum opts src tmt).2.2.2
       = (if (compile_apply_depdb (Depdb.openDb ls mt) checksum opts src tmt).2.2.1
          then timestamp_nonexistent else tmt)) := by
  set d0 := Depdb.openDb ls mt with hd0
  have hwf0 : d0.WF := Depdb.openDb_wf ls mt
  obtain ⟨hwfA, hposA, htakeA, hmtA, hwrA, _⟩ := Depdb.expect_step d0 "cxx.compile 1" hwf0
  set rA := d0.expect "cxx.compile 1" with hrA
  obtain ⟨hwfB, hposB, htakeB, hmtB, hwrB, hfB⟩ := Depdb.expect_step rA.2 checksum hwfA
  set rB := rA.2.expect checksum with hrB
  obtain ⟨hwfC, hposC, htakeC, hmtC, hwrC, hfC⟩ := Depdb.expect_step rB.2 opts hwfB
  set rC := rB.2.expect opts with hrC
  obtain ⟨hwfD, hposD, htakeD, hmtD, hwrD, hfD⟩ := Depdb.expect_step rC.2 src hwfC
  set rD := rC.2.expect src with hrD
  have hp0 : d0.pos = 0 := rfl
  have hpA : rA.2.pos = 1 := by rw [hposA, hp0]
  have hpB : rB.2.pos = 2 := by rw [hposB, hpA]
  have hpC : rC.2.pos = 3 := by rw [hposC, hpB]
  have hm0 : d0.mtime = mt := rfl
  have hw0 : d0.writing = false := rfl
  have htake : rD.2.lines.take 4 = ["cxx.compile 1", checksum, opts, src] := by
    have t0 : d0.lines.take 0 = [] := by simp
    have t1 : rA.2.lines.take 1 = ["cxx.compile 1"] := by
      have := htakeA; rw [hp0] at this; simpa using this
    have t2 : rB.2.lines.take 2 = ["cxx.compile 1", checksum] := by
      have := htakeB; rw [hpA] at this; rw [this, t1]; rfl
    have t3 : rC.2.lines.take 3 = ["cxx.compile 1", checksum, opts] := by
      have := htakeC; rw [hpB] at this; rw [this, t2]; rfl
    have := htakeD; rw [hpC] at this; rw [this, t3]; rfl
  have hmt4 : rD.2.mtime = mt := by rw [hmtD, hmtC, hmtB, hmtA, hm0]
  have hwr4 : rD.2.writing = (!rA.1 || !rB.1 || !rC.1 || !rD.1) := by
    rw [hwrD, hwrC, hwrB, hwrA, hw0]
    cases rA.1 <;> cases rB.1 <;> cases rC.1 <;> cases rD.1 <;> rfl
  refine ⟨?_, ?_, ?_⟩
  · exact htake
  · show (rD.2.writing || decide (rD.2.mtime > tmt)) = true ↔
      (rA.1 = false ∨ rB.1 = false ∨ rC.1 = false ∨ rD.1 = false ∨ mt > tmt)
    rw [hwr4, hmt4]
    cases rA.1 <;> cases rB.1 <;> cases rC.1 <;> cases rD.1 <;>
      by_cases hgt : mt > tmt <;> simp [hgt]
  · rfl

/-- Lexicographic strict comparison of lists over a Boolean element
comparison (the shape of C++ string and path comparison). -/
def lexLt {α : Type} (lt : α → α → Bool) : List α → List α → Bool
  | _, [] => false
  | [], _ :: _ => true
  | a :: as, b :: bs =>
    if lt a b then true
    else if lt b a then false
    else lexLt lt as bs

/-- A Boolean comparison that is a strict total order. -/
structure StrictTotal {α : Type} (lt : α → α → Bool) : Prop where
  irrefl : ∀ a, lt a a = false
  trans : ∀ a b c, lt a b = true → lt b c = true → lt a c = true
  conn : ∀ a b, lt a b = false → lt b a = false → a = b

/-- In a strict total order two elements are never both below each
other. -/
theorem StrictTotal.asymm {α : Type} {lt : α → α → Bool} (h : StrictTotal lt)
    (a b : α) (hab : lt a b = true) : lt b a = false := by
  by_contra hc
  have hba : lt b a = true := by
    cases hx : lt b a
    · exact absurd hx hc
    · rfl
  have := h.trans a b a hab hba
  rw [h.irrefl a] at this
  cases this


/-- Lexicographic comparison preserves being a strict total order. -/
theorem lexLt_strictTotal {α : Type} (lt : α → α → Bool) (h : StrictTotal lt) :
    StrictTotal (lexLt lt) := by
  have hne : ∀ a b : α, ¬ lt a b = true → lt a b = false := by
    intro a b hx
    cases hy : lt a b
    · rfl
    · exact absurd hy hx
  constructor
  · intro a
    induction a with
    | nil => rfl
    | cons x xs ih => simp [lexLt, h.irrefl x, ih]
  · intro a
    induction a with
    | nil =>
      intro b c hab hbc
      cases b with
      | nil => simp [lexLt] at hab
      | cons y ys =>
        cases c with
        | nil => simp [lexLt] at hbc
        | cons z zs => simp [lexLt]
    | cons x xs ih =>
      intro b c hab hbc
      cases b with
      | nil => simp [lexLt] at hab
      | cons y ys =>
        cases c with
        | nil => simp [lexLt] at hbc
        | cons z zs =>
          simp only [lexLt] at hab hbc ⊢
          by_cases hxy : lt x y = true
          · by_cases hyz : lt y z = true
            · rw [if_pos (h.trans x y z hxy hyz)]
            · by_cases hzy : lt z y = true
              · rw [if_neg hyz, if_pos hzy] at hbc
                cases hbc
              · have hyz' : y = z := h.conn y z (hne y z hyz) (hne z y hzy)
                subst hyz'
                rw [if_pos hxy]
          · by_cases hyx : lt y x = true
            · rw [if_neg hxy, if_pos hyx] at hab
              cases hab
            · have hxy' : x = y := h.conn x y (hne x y hxy) (hne y x hyx)
              subst hxy'
              rw [if_neg hxy, if_neg hyx] at hab
              by_cases hxz : lt x z = true
              · rw [if_pos hxz]
              · by_cases hzx : lt z x = true
                · rw [if_neg hxz, if_pos hzx] at hbc
                  cases hbc
                · rw [if_neg hxz, if_neg hzx] at hbc ⊢
                  exact ih ys zs hab hbc
  · intro a
    induction a with
    | nil =>
      intro b hab hba
      cases b with
      | nil => rfl
      | cons y ys => simp [lexLt] at hab
    | cons x xs ih =>
      intro b hab hba
      cases b with
      | nil => simp [lexLt] at hba
      | cons y ys =>
        simp only [lexLt] at hab hba
        by_cases hxy : lt x y = true
        · rw [if_pos hxy] at hab
          cases hab
        · by_cases hyx : lt y x = true
          · rw [if_pos hyx] at hba
            cases hba
          · have hxy' : x = y := h.conn x y (hne x y hxy) (hne y x hyx)
            subst hxy'
            rw [if_neg hxy, if_neg hyx] at hab hba
            have hxs := ih ys hab hba
            rw [hxs]

/-- Character comparison (byte comparison of C++ path strings). -/
def charLt (a b : Char) : Bool := decide (a < b)

/-- Character comparison is a strict total order. -/
theorem charLt_strictTotal : StrictTotal charLt := by
  constructor
  · intro a
    simp [charLt]
  · intro a b c hab hbc
    simp only [charLt, decide_eq_true_eq] at hab hbc ⊢
    exact lt_trans hab hbc
  · intro a b hab hba
    simp only [charLt, decide_eq_false_iff_not] at hab hba
    exact le_antisymm (not_lt.mp hba) (not_lt.mp hab)

/-- A path component: the character list of its name (C++ string). -/
abbrev Component := List Char

/-- Component comparison: lexicographic character comparison, as done by
C++ string comparison. -/
def compLt : Component → Component → Bool := lexLt charLt

/-- Component comparison is a strict total order. -/
theorem compLt_strictTotal : StrictTotal compLt :=
  lexLt_strictTotal charLt charLt_strictTotal

/-- A directory path, modelled as its list of components. -/
abbrev Dir := List Component

/-- Ordering of directory keys in the sorted prefix map (butl
dir_path_map, not among the sources; modelled as component-wise
lexicographic comparison). -/
def dirLt : Dir → Dir → Bool := lexLt compLt

/-- Directory comparison is a strict total order. -/
theorem dirLt_strictTotal : StrictTotal dirLt :=
  lexLt_strictTotal compLt compLt_strictTotal

/-- Embedding of dir_path::sub as used by the prefix lookup: isAncestor p
d holds when p is a (possibly equal) prefix of d. -/
def isAncestor : Dir → Dir → Bool
  | [], _ => true
  | _ :: _, [] => false
  | a :: as, b :: bs => a == b && isAncestor as bs

/-- An ancestor of a directory is never greater than it in the directory
order. -/
theorem isAncestor_not_lt (k d : Dir) (h : isAncestor k d = true) :
    dirLt d k = false := by
  induction k generalizing d with
  | nil => cases d <;> rfl
  | cons a as ih =>
    cases d with
    | nil => simp [isAncestor] at h
    | cons b bs =>
      simp only [isAncestor, Bool.and_eq_true, beq_iff_eq] at h
      obtain ⟨rfl, h2⟩ := h
      show lexLt compLt (a :: bs) (a :: as) = false
      have hirr : compLt a a = false := compLt_strictTotal.irrefl a
      simp only [lexLt, hirr, Bool.false_eq_true, if_false]
      exact ih bs h2

/-- Upper bound on a sorted association list: the index of the first entry
whose key is greater than d (the linear formulation of
std::map::upper_bound). -/
def upperBound (m : List (Dir × Dir)) (d : Dir) : Nat :=
  match m with
  | [] => 0
  | (k, _) :: rest => if dirLt d k then 0 else (upperBound rest d) + 1

/-- Embedding of the prefix map consultation for a relative header in the
add lambda of inject_prerequisites (build2/cxx/compile.cxx:844): take the
upper bound of the header directory among the sorted keys, step back one
entry and use it only when it is an ancestor of the directory; otherwise
the lookup fails (the build error). -/
def prefix_lookup (m : List (Dir × Dir)) (d : Dir) : Option Dir :=
  if m.isEmpty then none
  else
    let i := upperBound m d
    if i = 0 then none
    else
      match m[i - 1]? with
      | some kv => if isAncestor kv.1 d then some kv.2 else none
      | none => none

/-- Embedding of the mapping step f = i->second / f (compile.cxx:865): on
success the base directory of the found entry is prepended to the
relative header path. -/
def add_relative (m : List (Dir × Dir)) (dir : Dir) (file : Component) :
    Option (Dir × Component) :=
  match prefix_lookup m dir with
  | none => none
  | some base => some (base ++ dir, file)

/-- The upper bound never exceeds the length of the map. -/
theorem upperBound_le_length (m : List (Dir × Dir)) (d : Dir) :
    upperBound m d ≤ m.length := by
  induction m with
  | nil => exact Nat.le_refl 0
  | cons kv rest ih =>
    obtain ⟨k, v⟩ := kv
    unfold upperBound
    by_cases h : dirLt d k = true
    · rw [if_pos h]
      exact Nat.zero_le _
    · rw [if_neg h]
      simpa using ih

/-- Every entry before the upper bound has a key that is not greater than
the looked-up directory. -/
theorem upperBound_before (m : List (Dir × Dir)) (d : Dir) (j : Nat)
    (hj : j < upperBound m d) (hlen : j < m.length) :
    dirLt d (m[j]).1 = false := by
  induction m generalizing j with
  | nil => cases hlen
  | cons kv rest ih =>
    obtain ⟨k, v⟩ := kv
    unfold upperBound at hj
    by_cases h : dirLt d k = true
    · rw [if_pos h] at hj
      cases hj
    · rw [if_neg h] at hj
      cases j with
      | zero => simpa using h
      | succ j' =>
        have hj' : j' < upperBound rest d := by omega
        have hlen' : j' < rest.length := by simpa using hlen
        simpa using ih j' hj' hlen'

/-- In a sorted map every entry at or after the upper bound has a key
greater than the looked-up directory. -/
theorem upperBound_after (m : List (Dir × Dir)) (d : Dir)
    (hs : List.Pairwise (fun a b => dirLt a.1 b.1 = true) m) (j : Nat)
    (hj : upperBound m d ≤ j) (hlen : j < m.length) :
    dirLt d (m[j]).1 = true := by
  induction m generalizing j with
  | nil => cases hlen
  | cons kv rest ih =>
    obtain ⟨k, v⟩ := kv
    rw [List.pairwise_cons] at hs
    obtain ⟨hhead, htail⟩ := hs
    unfold upperBound at hj
    by_cases h : dirLt d k = true
    · rw [if_pos h] at hj
      cases j with
      | zero => simpa using h
      | succ j' =>
        have hlen' : j' < rest.length := by simpa using hlen
        have hmem : rest[j'] ∈ rest := List.getElem_mem hlen'
        have hkj : dirLt k (rest[j']).1 = true := hhead _ hmem
        simpa using dirLt_strictTotal.trans d k (rest[j']).1 h hkj
    · rw [if_neg h] at hj
      cases j with
      | zero => cases hj
      | succ j' =>
        have hub : upperBound rest d ≤ j' := by omega
        have hlen' : j' < rest.length := by simpa using hlen
        simpa using ih htail j' hub hlen'

/-- C3 (amended, success direction): when the lookup succeeds on a sorted
prefix map, the entry it used is an ancestor of the directory, the
returned base is that entry's base, and that entry is the most qualified
ancestor present in the map (every other ancestor key is less in the key
order). -/
theorem C3_most_qualified (m : List (Dir × Dir)) (d : Dir)
    (hs : List.Pairwise (fun a b => dirLt a.1 b.1 = true) m) (v : Dir)
    (hl : prefix_lookup m d = some v) :
    ∃ k, (k, v) ∈ m ∧ isAncestor k d = true ∧
      ∀ kv ∈ m, isAncestor kv.1 d = true → (dirLt kv.1 k = true ∨ kv.1 = k) := by
  unfold prefix_lookup at hl
  by_cases hemp : m.isEmpty
  · rw [if_pos hemp] at hl
    cases hl
  · rw [if_neg hemp] at hl
    by_cases hz : upperBound m d = 0
    · rw [if_pos hz] at hl
      cases hl
    · rw [if_neg hz] at hl
      have hlt : upperBound m d - 1 < m.length := by
        have := upperBound_le_length m d
        omega
      obtain ⟨kv0, hkv0⟩ : ∃ kv, m[upperBound m d - 1]? = some kv :=
        ⟨m[upperBound m d - 1], List.getElem?_eq_getElem hlt⟩
      have hkv0get : m[upperBound m d - 1] = kv0 := by
        rcases List.getElem?_eq_some_iff.mp hkv0 with ⟨h1, h2⟩
        exact h2
      rw [hkv0] at hl
      dsimp only at hl
      by_cases hanc : isAncestor kv0.1 d = true
      · rw [if_pos hanc] at hl
        cases hl
        refine ⟨kv0.1, ?_, hanc, ?_⟩
        · have hmem := List.getElem_mem hlt
          rw [hkv0get] at hmem
          simpa using hmem
        · intro kv hkv hkvanc
          obtain ⟨j, hjlen, hjeq⟩ := List.mem_iff_getElem.mp hkv
          have hnotlt : dirLt d kv.1 = false := isAncestor_not_lt kv.1 d hkvanc
          have hjlt : j < upperBound m d := by
            by_contra hge
            have hafter := upperBound_after m d hs j (by omega) hjlen
            rw [hjeq] at hafter
            rw [hafter] at hnotlt
            cases hnotlt
          by_cases hje : j = upperBound m d - 1
          · right
            subst hje
            have hkk : kv = kv0 := hjeq.symm.trans hkv0get
            rw [hkk]
          · left
            have hjlt' : j < upperBound m d - 1 := by omega
            have hpw := (List.pairwise_iff_getElem.mp hs) j (upperBound m d - 1)
              hjlen hlt hjlt'
            rw [hjeq, hkv0get] at hpw
            exact hpw
      · rw [if_neg hanc] at hl
        cases hl

/-- C3 counterexample: a sorted prefix map containing the ancestor a/b of
the header directory a/b/c/x together with the non-ancestor key a/b/c/q
that sorts between it and the directory: the claim predicts the most
qualified ancestor a/b to be selected and prepended, but the lookup
fails. -/
theorem C3_counterexample :
    prefix_lookup
        [([['a'], ['b']], [['d'], ['1']]),
         ([['a'], ['b'], ['c'], ['q']], [['d'], ['2']])]
        [['a'], ['b'], ['c'], ['x']] = none ∧
    isAncestor [['a'], ['b']] [['a'], ['b'], ['c'], ['x']] = true ∧
    List.Pairwise (fun a b => dirLt a.1 b.1 = true)
      [([['a'], ['b']], [['d'], ['1']]),
       ([['a'], ['b'], ['c'], ['q']], [['d'], ['2']])] := by
  refine ⟨by decide, by decide, ?_⟩
  simp only [List.pairwise_cons, List.mem_singleton, List.not_mem_nil]
  refine ⟨?_, ?_, List.Pairwise.nil⟩
  · intro kv hkv
    subst hkv
    decide
  · intro kv hkv
    cases hkv

/-- A header target as seen by the update lambda of inject_prerequisites:
the target state before the call, the state execute_direct would leave it
in, and the file mtime. -/
structure Header where
  os : TState
  ns : TState
  mt : Nat
  deriving Repr, DecidableEq

/-- Embedding of the update lambda (build2/cxx/compile.cxx:781): execute
the target unless it is already unchanged and report true when that
execution newly changed it; otherwise, when a timestamp was supplied,
report whether the target is newer than the timestamp, or exactly as new
while not in the changed state. -/
def update (h : Header) (ts : Option Nat) : Bool :=
  if h.os ≠ TState.unchanged ∧ h.ns ≠ h.os ∧ h.ns ≠ TState.unchanged then true
  else
    match ts with
    | some t =>
      decide (t < h.mt) ||
        (decide (t = h.mt) &&
         decide ((if h.os ≠ TState.unchanged then h.ns else h.os) ≠ TState.changed))
    | none => false

/-- A line of the cached header list read back from the depdb. -/
inductive CacheLine
  | invalid
  | hdr (h : Header)
  deriving Repr, DecidableEq

/-- Embedding of the cached fast path of inject_prerequisites
(build2/cxx/compile.cxx:994): walk the cached lines; an invalid line
restarts into the compiler run without counting the header; a valid
header is updated against the depdb mtime and restarts the extraction
when the update lambda reports true.  Returns the restart flag and the
skip count. -/
def cache_walk (ls : List CacheLine) (ddmt : Nat) : Bool × Nat :=
  match ls with
  | [] => (false, 0)
  | CacheLine.invalid :: _ => (true, 0)
  | CacheLine.hdr h :: rest =>
    if update h (some ddmt) then (true, 1)
    else
      let r := cache_walk rest ddmt
      (r.1, r.2 + 1)

/-- C4 (amended): the cached walk finishes without restart exactly when
every cached line is a valid header whose update reported false; and a
header's update reports true exactly when execute_direct newly changed it
(regardless of its mtime), or its mtime is newer than the depdb's
(regardless of any change), or exactly as new while the header is not in
the changed state. -/
theorem C4_cache_stale (ls : List CacheLine) (t : Nat) :
    ((cache_walk ls t).1 = false ↔
      ∀ l ∈ ls, ∃ h, l = CacheLine.hdr h ∧ update h (some t) = false) ∧
    (∀ h2 : Header, update h2 (some t) = true ↔
      ((h2.os ≠ TState.unchanged ∧ h2.ns ≠ h2.os ∧ h2.ns ≠ TState.unchanged) ∨
       t < h2.mt ∨
       (t = h2.mt ∧
        (if h2.os ≠ TState.unchanged then h2.ns else h2.os) ≠ TState.changed))) := by
  have hupd : ∀ h2 : Header, update h2 (some t) = true ↔
      ((h2.os ≠ TState.unchanged ∧ h2.ns ≠ h2.os ∧ h2.ns ≠ TState.unchanged) ∨
       t < h2.mt ∨
       (t = h2.mt ∧
        (if h2.os ≠ TState.unchanged then h2.ns else h2.os) ≠ TState.changed)) := by
    intro h2
    unfold update
    by_cases hc : h2.os ≠ TState.unchanged ∧ h2.ns ≠ h2.os ∧ h2.ns ≠ TState.unchanged
    · rw [if_pos hc]
      simp [hc]
    · rw [if_neg hc]
      simp [hc]
  refine ⟨?_, hupd⟩
  induction ls with
  | nil => simp [cache_walk]
  | cons l rest ih =>
    cases l with
    | invalid =>
      simp only [cache_walk]
      constructor
      · intro hcon
        cases hcon
      · intro hall
        obtain ⟨h2, hh2, _⟩ := hall CacheLine.invalid (by simp)
        cases hh2
    | hdr h2 =>
      by_cases hu : update h2 (some t) = true
      · simp only [cache_walk, if_pos hu]
        constructor
        · intro hcon
          cases hcon
        · intro hall
          obtain ⟨h3, hh3, hu3⟩ := hall (CacheLine.hdr h2) (by simp)
          cases hh3
          rw [hu] at hu3
          cases hu3
      · simp only [cache_walk, if_neg hu]
        constructor
        · intro hrest
          intro l hl
          rcases List.mem_cons.mp hl with rfl | hl
          · exact ⟨h2, rfl, by simpa using hu⟩
          · exact ih.mp hrest l hl
        · intro hall
          exact ih.mpr (fun l hl => hall l (List.mem_cons_of_mem _ hl))

/-- C4 counterexample: a cached header that is already in the unchanged
state (so its update never reports a change) but whose mtime 5 is newer
than the depdb mtime 3 still restarts the walk, against the claim that a
restart needs the update to have reported changed. -/
theorem C4_counterexample :
    cache_walk
        [CacheLine.hdr { os := TState.unchanged, ns := TState.unchanged, mt := 5 }] 3
      = (true, 1) ∧
    ({ os := TState.unchanged, ns := TState.unchanged, mt := 5 } : Header).os
      = TState.unchanged := by
  exact ⟨by decide, rfl⟩

/-- C3 witness: on the sorted two-entry map with keys a and a/b, looking up
directory a/b/c succeeds and the entry a/b is the most qualified ancestor. -/
theorem C3_witness :
    ∃ k, (k, [['b'], ['2']]) ∈
        [([['a']], [['b'], ['1']]), ([['a'], ['b']], [['b'], ['2']])] ∧
      isAncestor k [['a'], ['b'], ['c']] = true ∧
      ∀ kv ∈ [([['a']], [['b'], ['1']]), ([['a'], ['b']], [['b'], ['2']])],
        isAncestor kv.1 [['a'], ['b'], ['c']] = true →
          (dirLt kv.1 k = true ∨ kv.1 = k) :=
  C3_most_qualified
    [([['a']], [['b'], ['1']]), ([['a'], ['b']], [['b'], ['2']])]
    [['a'], ['b'], ['c']]
    (by
      simp only [List.pairwise_cons, List.mem_singleton, List.not_mem_nil]
      refine ⟨?_, ?_, List.Pairwise.nil⟩
      · intro kv hkv
        subst hkv
        decide
      · intro kv hkv
        cases hkv)
    [['b'], ['2']]
    (by decide)

/-- Redirect operator token types of the script lexer, with any aliases
already resolved (libbuild2/script/parser.cxx parse_redirect). -/
inductive RedirOp
  | in_pass | in_null | in_str | in_doc | in_file
  | out_pass | out_null | out_trace | out_merge | out_str | out_doc
  | out_file_cmp | out_file_ovr | out_file_app
  deriving Repr, DecidableEq

/-- The input operator family (those validated against descriptor 0). -/
def RedirOp.isIn : RedirOp → Bool
  | in_pass | in_null | in_str | in_doc | in_file => true
  | _ => false

/-- Embedding of the stoul call plus the full-consumption check of
parse_redirect: leading whitespace and an optional plus sign are skipped,
then the whole remainder must be decimal digits.  A negative number, for
which strtoul wraps to a huge value failing the bound check, collapses to
the same error as a failed parse in the caller and is modelled as a
failed parse. -/
def stoulAll (s : String) : Option Nat :=
  let cs := s.data.dropWhile (fun c => c = ' ' ∨ c = '\t' ∨ c = '\n' ∨ c = '\r')
  let cs2 := match cs with
    | '+' :: rest => rest
    | _ => cs
  if cs2 ≠ [] ∧ cs2.all (fun c => decide ('0' ≤ c) && decide (c ≤ '9')) then
    some (cs2.foldl (fun a c => a * 10 + (c.toNat - 48)) 0)
  else none

/-- Embedding of the explicit descriptor extraction of the parse_redirect
lambda (libbuild2/script/parser.cxx:425-447): when the redirect token was
separated there is no explicit descriptor; otherwise the last argument
word must parse entirely as a number at most 2. -/
def parse_explicit_fd (separated : Bool) (lastArg : Option String) :
    Except String (Option Nat) :=
  match separated with
  | true => Except.ok none
  | false =>
    match lastArg with
    | none => Except.error "missing redirect file descriptor"
    | some s =>
      match stoulAll s with
      | some fd =>
        if fd > 2 then Except.error "invalid redirect file descriptor"
        else Except.ok (some fd)
      | none => Except.error "invalid redirect file descriptor"

/-- Embedding of the descriptor validation and defaulting switch of
parse_redirect (libbuild2/script/parser.cxx:449-482), keyed on the
operator family: the input family defaults to and must be descriptor 0
and is rejected when stdin is already piped; the output family defaults
to 1 and must not be 0. -/
def redirect_fd_core (isInput : Bool) (efd : Except String (Option Nat))
    (pipeNonEmpty : Bool) : Except String Nat :=
  match efd with
  | Except.error e => Except.error e
  | Except.ok ofd =>
    match isInput with
    | true =>
      if ofd.getD 0 ≠ 0 then Except.error "invalid in redirect file descriptor"
      else if pipeNonEmpty then Except.error "stdin is both piped and redirected"
      else Except.ok (ofd.getD 0)
    | false =>
      if ofd.getD 1 = 0 then Except.error "invalid out redirect file descriptor"
      else Except.ok (ofd.getD 1)

/-- The full descriptor handling of a redirect operator. -/
def parse_redirect_fd (op : RedirOp) (separated : Bool) (lastArg : Option String)
    (pipeNonEmpty : Bool) : Except String Nat :=
  redirect_fd_core op.isIn (parse_explicit_fd separated lastArg) pipeNonEmpty

/-- The kinds a parsed redirect can have (libbuild2/script redirect_type). -/
inductive RedirType
  | pass | null | trace | merge
  | here_str_literal | here_str_regex
  | here_doc_literal | here_doc_regex | here_doc_ref
  | file
  deriving Repr, DecidableEq

/-- The redirect state of a command relevant to check_command. -/
structure Command where
  out : Option RedirType
  err : Option RedirType
  deriving Repr, DecidableEq

/-- Embedding of the check_command lambda
(libbuild2/script/parser.cxx:129-137): merging stdout and stderr into
each other is an error, and a non-final command of a pipe must not also
redirect stdout. -/
def check_command (c : Command) (last : Bool) : Except String Unit :=
  if c.out = some RedirType.merge ∧ c.err = some RedirType.merge then
    Except.error "stdout and stderr redirected to each other"
  else if ¬ last = true ∧ c.out.isSome then
    Except.error "stdout is both redirected and piped"
  else Except.ok ()

/-- C9: the validations of command redirects: mutual merge of stdout and
stderr is rejected; an input redirect on a command whose stdin is piped
is rejected however the descriptor is given; an explicit descriptor above
2 is rejected; an explicit non-zero descriptor on an input operator and
the explicit zero descriptor on an output operator are rejected; a
redirect without explicit descriptor defaults to 0 for the input family
and 1 for the output family. -/
theorem C9_redirect_validation :
    (∀ (c : Command) (last : Bool),
       check_command c last = Except.error "stdout and stderr redirected to each other"
         ↔ (c.out = some RedirType.merge ∧ c.err = some RedirType.merge)) ∧
    (∀ (op : RedirOp) (sep : Bool) (arg : Option String), op.isIn = true →
       (parse_redirect_fd op sep arg true).isOk = false) ∧
    (∀ (op : RedirOp) (s : String) (pipe : Bool) (v : Nat),
       stoulAll s = some v → 2 < v →
       parse_redirect_fd op false (some s) pipe
         = Except.error "invalid redirect file descriptor") ∧
    (∀ (op : RedirOp) (s : String) (pipe : Bool) (v : Nat),
       op.isIn = true → stoulAll s = some v → v ≤ 2 → v ≠ 0 →
       parse_redirect_fd op false (some s) pipe
         = Except.error "invalid in redirect file descriptor") ∧
    (∀ (op : RedirOp) (s : String) (pipe : Bool),
       op.isIn = false → stoulAll s = some 0 →
       parse_redirect_fd op false (some s) pipe
         = Except.error "invalid out redirect file descriptor") ∧
    (∀ (op : RedirOp) (arg : Option String), op.isIn = true →
       parse_redirect_fd op true arg false = Except.ok 0) ∧
    (∀ (op : RedirOp) (arg : Option String) (pipe : Bool), op.isIn = false →
       parse_redirect_fd op true arg pipe = Except.ok 1) := by
  refine ⟨?_, ?_, ?_, ?_, ?_, ?_, ?_⟩
  · intro c last
    unfold check_command
    by_cases h1 : c.out = some RedirType.merge ∧ c.err = some RedirType.merge
    · rw [if_pos h1]
      simp [h1]
    · rw [if_neg h1]
      by_cases h2 : ¬ last = true ∧ c.out.isSome
      · rw [if_pos h2]
        constructor
        · intro h
          injection h with h3
          exact absurd h3 (by decide)
        · intro hcon
          exact absurd hcon h1
      · rw [if_neg h2]
        constructor
        · intro h
          cases h
        · intro hcon
          exact absurd hcon h1
  · intro op sep arg hin
    unfold parse_redirect_fd
    rw [hin]
    cases hefd : parse_explicit_fd sep arg with
    | error e => rfl
    | ok ofd =>
      by_cases hz : ofd.getD 0 ≠ 0
      · have hval : redirect_fd_core true (Except.ok ofd) true
            = Except.error "invalid in redirect file descriptor" := by
          unfold redirect_fd_core
          dsimp only
          rw [if_pos hz]
        rw [hval]
        rfl
      · have hval : redirect_fd_core true (Except.ok ofd) true
            = Except.error "stdin is both piped and redirected" := by
          unfold redirect_fd_core
          dsimp only
          rw [if_neg hz, if_pos rfl]
        rw [hval]
        rfl
  · intro op s pipe v hst hv
    unfold parse_redirect_fd
    have hefd : parse_explicit_fd false (some s)
        = Except.error "invalid redirect file descriptor" := by
      unfold parse_explicit_fd
      dsimp only
      rw [hst]
      dsimp only
      rw [if_pos hv]
    rw [hefd]
    cases hio : op.isIn <;> rfl
  · intro op s pipe v hin hst hle hnz
    unfold parse_redirect_fd
    have hefd : parse_explicit_fd false (some s) = Except.ok (some v) := by
      unfold parse_explicit_fd
      dsimp only
      rw [hst]
      dsimp only
      rw [if_neg (by omega)]
    rw [hefd, hin]
    show redirect_fd_core true (Except.ok (some v)) pipe = _
    unfold redirect_fd_core
    dsimp only
    rw [if_pos (by simpa using hnz)]
  · intro op s pipe hout hst
    unfold parse_redirect_fd
    have hefd : parse_explicit_fd false (some s) = Except.ok (some 0) := by
      unfold parse_explicit_fd
      dsimp only
      rw [hst]
      dsimp only
      rw [if_neg (by omega)]
    rw [hefd, hout]
    rfl
  · intro op arg hin
    unfold parse_redirect_fd
    rw [hin]
    rfl
  · intro op arg pipe hout
    unfold parse_redirect_fd
    rw [hout]
    rfl

/-- Quoting classification of a word token (libbuild2 quote_type). -/
inductive QuoteT
  | unquoted | single | double_ | mixed
  deriving Repr, DecidableEq

/-- A here-document redirect token as seen during pre-parsing
(libbuild2/script/parser.cxx:758): the operator modifier string, the raw
end marker word and its quoting. -/
structure RedirTok where
  mod : String
  end_marker : String
  qtype : QuoteT
  qcomp : Bool
  deriving Repr, DecidableEq

/-- The redirect is a regex here-document when the modifier contains a
tilde. -/
def RedirTok.isRegex (tk : RedirTok) : Bool := tk.mod.data.contains '~'

/-- Embedding of the end marker quoting switch
(libbuild2/script/parser.cxx:798-811): an unquoted marker is treated as
single-quoted; a partially quoted or mixed-quoted marker is an error;
the result tells whether the marker is literal (single) rather than
expanding (double). -/
def marker_literal (qt : QuoteT) (qcomp : Bool) : Option Bool :=
  match qt with
  | QuoteT.unquoted => some true
  | QuoteT.single => if qcomp then some true else none
  | QuoteT.double_ => if qcomp then some false else none
  | QuoteT.mixed => none

/-- Embedding of parse_regex (libbuild2/script/parser.cxx:63-97) without
an end-of-parsing request: the first character introduces, the next
occurrence of it terminates a non-empty regex, then flag characters d
and i may follow and anything further is junk.  Returns (value,
introducer, flags). -/
def parse_regex (s : List Char) : Option (List Char × Char × List Char) :=
  match s with
  | [] => none
  | c0 :: rest =>
    match rest.findIdx? (fun c => c == c0) with
    | none => none
    | some i =>
      if i = 0 then none
      else
        let value := rest.take i
        let after := rest.drop (i + 1)
        let flags := after.takeWhile (fun c => c == 'd' || c == 'i')
        if after.drop flags.length ≠ [] then none
        else some (value, c0, flags)

/-- The attributes a pre-parsed here-document redirect contributes: the
cleared end marker, the literal flag, and for regex redirects the
introducer and global flags (the null character and an empty flag list
otherwise, as with the default-constructed regex_parts).  Follows
libbuild2/script/parser.cxx:758-826; the peeked dollar and parenthesis
check concerns the following token and is not modelled. -/
def preparse_attrs (tk : RedirTok) : Option (List Char × Bool × Char × List Char) :=
  if tk.end_marker.data = [] then none
  else
    match marker_literal tk.qtype tk.qcomp with
    | none => none
    | some literal =>
      if tk.isRegex then
        if tk.mod.data.contains '/' ∧ tk.end_marker.data.headD '\x00' = '/' then
          none
        else
          match parse_regex tk.end_marker.data with
          | none => none
          | some vif => some (vif.1, literal, vif.2.1, vif.2.2)
      else some (tk.end_marker.data, literal, '\x00', [])

/-- A here-document fragment collected during pre-parsing
(libbuild2/script/parser.cxx here_doc): the cleared end marker, the
literal flag, the operator modifiers, and the regex introducer and
global flags. -/
structure HereDoc where
  end_marker : List Char
  literal : Bool
  modifiers : String
  regex : Char
  regex_flags : List Char
  deriving Repr, DecidableEq

/-- The stored here-document d is compatible with the redirect token tk of
attributes a: same cleared end marker, same modifiers, same quoting, and
for a regex redirect the same introducer and global flags. -/
def docMatches (d : HereDoc) (tk : RedirTok)
    (a : List Char × Bool × Char × List Char) : Prop :=
  d.end_marker = a.1 ∧ d.modifiers = tk.mod ∧ d.literal = a.2.1 ∧
    (tk.isRegex = true → (d.regex = a.2.2.1 ∧ d.regex_flags = a.2.2.2))

/-- Embedding of the pre-parse here-document bookkeeping for one redirect
(libbuild2/script/parser.cxx:826-864): when a collected fragment already
has this cleared end marker, the redirect shares it, which requires
identical modifiers, quoting and (for regex) introducer and flags;
otherwise a new fragment is appended. -/
def preparse_here_doc (hd : List HereDoc) (tk : RedirTok) :
    Option (List HereDoc) :=
  match preparse_attrs tk with
  | none => none
  | some a =>
    match hd.find? (fun d => d.end_marker == a.1) with
    | some d =>
      if d.modifiers = tk.mod ∧ d.literal = a.2.1 ∧
          (tk.isRegex = true → (d.regex = a.2.2.1 ∧ d.regex_flags = a.2.2.2)) then
        some hd
      else none
    | none =>
      some (hd ++ [⟨a.1, a.2.1, tk.mod, a.2.2.1, a.2.2.2⟩])

/-- Pre-parse the here-document redirects of a command line in order. -/
def preparse_all : List RedirTok → List HereDoc → Option (List HereDoc)
  | [], hd => some hd
  | tk :: rest, hd =>
    match preparse_here_doc hd tk with
    | none => none
    | some hd' => preparse_all rest hd'

/-- A here-document redirect position at execution time: the expression
index, pipe index and file descriptor. -/
structure HereRedirect where
  expr : Nat
  pipe : Nat
  fd : Nat
  deriving Repr, DecidableEq

/-- A here-document fragment at execution time: its redirect positions in
command line order and the cleared end marker. -/
structure HereDocExec where
  redirects : List HereRedirect
  end_marker : List Char
  deriving Repr, DecidableEq

/-- Embedding of the execute-time sharing scan
(libbuild2/script/parser.cxx:987-1010): the redirect position is appended
to the fragment with the same end marker when one exists and otherwise
opens a new fragment. -/
def exec_add (hd : List HereDocExec) (endm : List Char) (rd : HereRedirect) :
    List HereDocExec :=
  match hd with
  | [] => [⟨[rd], endm⟩]
  | d :: rest =>
    if d.end_marker = endm then
      { d with redirects := d.redirects ++ [rd] } :: rest
    else d :: exec_add rest endm rd

/-- What a here-document body assignment leaves on a redirect: either the
parsed body itself or a reference to the owning redirect. -/
inductive BodyAssign
  | owner (body : String)
  | ref (target : HereRedirect)
  deriving Repr, DecidableEq

/-- Embedding of the body distribution of parse_here_documents
(libbuild2/script/parser.cxx:1345-1394): the first redirect of the
fragment receives the parsed body and every later one becomes a
here_doc_ref to it. -/
def apply_here_doc (body : String) (d : HereDocExec) :
    List (HereRedirect × BodyAssign) :=
  match d.redirects with
  | [] => []
  | r0 :: rs => (r0, BodyAssign.owner body) :: rs.map (fun r => (r, BodyAssign.ref r0))

/-- One pre-parse step: the collected fragments are only extended at the
end, the current token has attributes and a compatible fragment in the
result, and distinctness of end markers is preserved. -/
theorem preparse_here_doc_step (hd : List HereDoc) (tk : RedirTok)
    (hd' : List HereDoc) (h : preparse_here_doc hd tk = some hd') :
    ∃ a, preparse_attrs tk = some a ∧
      (∃ ext, hd' = hd ++ ext) ∧
      (∃ d ∈ hd', docMatches d tk a) ∧
      (List.Pairwise (fun d1 d2 => d1.end_marker ≠ d2.end_marker) hd →
        List.Pairwise (fun d1 d2 => d1.end_marker ≠ d2.end_marker) hd') := by
  unfold preparse_here_doc at h
  cases ha : preparse_attrs tk with
  | none => rw [ha] at h; cases h
  | some a =>
    rw [ha] at h
    dsimp only at h
    refine ⟨a, rfl, ?_⟩
    cases hf : hd.find? (fun d => d.end_marker == a.1) with
    | some d =>
      rw [hf] at h
      dsimp only at h
      by_cases hc : d.modifiers = tk.mod ∧ d.literal = a.2.1 ∧
          (tk.isRegex = true → (d.regex = a.2.2.1 ∧ d.regex_flags = a.2.2.2))
      · rw [if_pos hc] at h
        cases h
        refine ⟨⟨[], by simp⟩, ⟨d, List.mem_of_find?_eq_some hf, ?_⟩, fun hp => hp⟩
        have hend : d.end_marker = a.1 := by
          have := List.find?_some hf
          simpa using this
        exact ⟨hend, hc.1, hc.2.1, hc.2.2⟩
      · rw [if_neg hc] at h
        cases h
    | none =>
      rw [hf] at h
      dsimp only at h
      cases h
      have hnone : ∀ x ∈ hd, x.end_marker ≠ a.1 := by
        intro x hx
        have := List.find?_eq_none.mp hf x hx
        simpa using this
      refine ⟨⟨[⟨a.1, a.2.1, tk.mod, a.2.2.1, a.2.2.2⟩], rfl⟩, ?_, ?_⟩
      · refine ⟨⟨a.1, a.2.1, tk.mod, a.2.2.1, a.2.2.2⟩, by simp, ?_⟩
        exact ⟨rfl, rfl, rfl, fun _ => ⟨rfl, rfl⟩⟩
      · intro hp
        rw [List.pairwise_append]
        refine ⟨hp, by simp, ?_⟩
        intro x hx y hy
        simp only [List.mem_singleton] at hy
        subst hy
        exact hnone x hx

/-- Folding the pre-parse over a token list: fragments only grow, every
processed token has a compatible fragment in the final list, and
distinctness of end markers is preserved. -/
theorem preparse_all_spec (tks : List RedirTok) (hd0 hd : List HereDoc)
    (h : preparse_all tks hd0 = some hd) :
    (∃ ext, hd = hd0 ++ ext) ∧
    (List.Pairwise (fun d1 d2 => d1.end_marker ≠ d2.end_marker) hd0 →
      List.Pairwise (fun d1 d2 => d1.end_marker ≠ d2.end_marker) hd) ∧
    (∀ tk ∈ tks, ∃ a, preparse_attrs tk = some a ∧ ∃ d ∈ hd, docMatches d tk a) := by
  induction tks generalizing hd0 with
  | nil =>
    cases h
    exact ⟨⟨[], by simp⟩, fun hp => hp, by intro tk htk; cases htk⟩
  | cons tk rest ih =>
    unfold preparse_all at h
    cases hstep : preparse_here_doc hd0 tk with
    | none => rw [hstep] at h; cases h
    | some hd1 =>
      rw [hstep] at h
      dsimp only at h
      obtain ⟨a, ha, ⟨ext1, hext1⟩, ⟨d, hd_mem, hdm⟩, hp1⟩ :=
        preparse_here_doc_step hd0 tk hd1 hstep
      obtain ⟨⟨ext2, hext2⟩, hp2, hall⟩ := ih hd1 h
      refine ⟨⟨ext1 ++ ext2, by rw [hext2, hext1, List.append_assoc]⟩, ?_, ?_⟩
      · intro hp
        exact hp2 (hp1 hp)
      · intro tk2 htk2
        rcases List.mem_cons.mp htk2 with rfl | htk2
        · refine ⟨a, ha, d, ?_, hdm⟩
          rw [hext2]
          exact List.mem_append_left _ hd_mem
        · exact hall tk2 htk2

/-- In a fragment list with pairwise distinct end markers, two members
with equal end markers are the same fragment. -/
theorem hereDoc_unique (hd : List HereDoc)
    (hp : List.Pairwise (fun d1 d2 => d1.end_marker ≠ d2.end_marker) hd)
    (d1 d2 : HereDoc) (h1 : d1 ∈ hd) (h2 : d2 ∈ hd)
    (he : d1.end_marker = d2.end_marker) : d1 = d2 := by
  induction hd with
  | nil => cases h1
  | cons d rest ih =>
    rw [List.pairwise_cons] at hp
    obtain ⟨hhead, htail⟩ := hp
    rcases List.mem_cons.mp h1 with h1e | h1r
    · rcases List.mem_cons.mp h2 with h2e | h2r
      · rw [h1e, h2e]
      · subst h1e
        exact absurd he (hhead d2 h2r)
    · rcases List.mem_cons.mp h2 with h2e | h2r
      · subst h2e
        exact absurd he.symm (hhead d1 h1r)
      · exact ih htail h1r h2r

/-- C7: here-document sharing.  (i) When pre-parsing a command line
succeeds, any two here-document redirects whose cleared end markers are
equal have identical modifiers, identical quoting and, when regex,
identical introducer and global flags (they share one fragment).  (ii) A
redirect whose end marker matches a collected fragment with different
modifiers, quoting, introducer or flags is a parse error.  (iii) At
execution time a redirect position is appended to the unique fragment
with its end marker, a new fragment being opened only when none exists,
so all redirects with one end marker collect in one fragment in command
line order.  (iv) Distributing a parsed body over a fragment gives the
body to the first redirect and turns every later one into a
here_doc_ref to the first. -/
theorem C7_here_doc_sharing :
    (∀ (tks : List RedirTok) (hd : List HereDoc),
      preparse_all tks [] = some hd →
      ∀ tk1 ∈ tks, ∀ tk2 ∈ tks, ∀ a1 a2,
        preparse_attrs tk1 = some a1 → preparse_attrs tk2 = some a2 →
        a1.1 = a2.1 →
        tk1.mod = tk2.mod ∧ a1.2.1 = a2.2.1 ∧
          (tk1.isRegex = true → tk2.isRegex = true →
            a1.2.2.1 = a2.2.2.1 ∧ a1.2.2.2 = a2.2.2.2)) ∧
    (∀ (hd : List HereDoc) (tk : RedirTok) a d,
      preparse_attrs tk = some a →
      hd.find? (fun d' => d'.end_marker == a.1) = some d →
      ¬(d.modifiers = tk.mod ∧ d.literal = a.2.1 ∧
        (tk.isRegex = true → (d.regex = a.2.2.1 ∧ d.regex_flags = a.2.2.2))) →
      preparse_here_doc hd tk = none) ∧
    (∀ (hd : List HereDocExec) (endm : List Char) (rd : HereRedirect),
      (∀ d ∈ hd, d.end_marker ≠ endm) →
      exec_add hd endm rd = hd ++ [⟨[rd], endm⟩]) ∧
    (∀ (pre post : List HereDocExec) (d : HereDocExec) (endm : List Char)
        (rd : HereRedirect),
      d.end_marker = endm → (∀ d' ∈ pre, d'.end_marker ≠ endm) →
      exec_add (pre ++ d :: post) endm rd
        = pre ++ { d with redirects := d.redirects ++ [rd] } :: post) ∧
    (∀ (body : String) (d : HereDocExec) (r0 : HereRedirect)
        (rs : List HereRedirect),
      d.redirects = r0 :: rs →
      apply_here_doc body d
        = (r0, BodyAssign.owner body) :: rs.map (fun r => (r, BodyAssign.ref r0))) := by
  refine ⟨?_, ?_, ?_, ?_, ?_⟩
  · intro tks hd h tk1 h1 tk2 h2 a1 a2 ha1 ha2 hend
    obtain ⟨_, hp, hall⟩ := preparse_all_spec tks [] hd h
    have hpd := hp List.Pairwise.nil
    obtain ⟨a1', ha1', d1, hmem1, hm1⟩ := hall tk1 h1
    obtain ⟨a2', ha2', d2, hmem2, hm2⟩ := hall tk2 h2
    rw [ha1] at ha1'
    rw [ha2] at ha2'
    cases ha1'
    cases ha2'
    have hde : d1.end_marker = d2.end_marker := by
      rw [hm1.1, hm2.1, hend]
    have hd12 : d1 = d2 := hereDoc_unique hd hpd d1 d2 hmem1 hmem2 hde
    subst hd12
    refine ⟨?_, ?_, ?_⟩
    · rw [← hm1.2.1, ← hm2.2.1]
    · rw [← hm1.2.2.1, ← hm2.2.2.1]
    · intro hre1 hre2
      obtain ⟨hi1, hf1⟩ := hm1.2.2.2 hre1
      obtain ⟨hi2, hf2⟩ := hm2.2.2.2 hre2
      exact ⟨hi1 ▸ hi2, hf1 ▸ hf2⟩
  · intro hd tk a d ha hf hnc
    unfold preparse_here_doc
    rw [ha]
    dsimp only
    rw [hf]
    dsimp only
    rw [if_neg hnc]
  · intro hd endm rd hne
    induction hd with
    | nil => rfl
    | cons d rest ih =>
      unfold exec_add
      rw [if_neg (hne d (by simp))]
      rw [ih (fun d' hd' => hne d' (List.mem_cons_of_mem _ hd'))]
      rfl
  · intro pre post d endm rd hde hne
    induction pre with
    | nil =>
      simp only [List.nil_append]
      unfold exec_add
      rw [if_pos hde]
    | cons p rest ih =>
      simp only [List.cons_append]
      unfold exec_add
      rw [if_neg (hne p (by simp))]
      rw [ih (fun d' hd' => hne d' (List.mem_cons_of_mem _ hd'))]
  · intro body d r0 rs hred
    unfold apply_here_doc
    rw [hred]

/-- C7 demonstration on the specification example: two here-document
redirects with end marker EOO and identical empty modifiers pre-parse to
a single fragment, their execute-time positions collect in that fragment
in order, and the body distribution stores one body on the first redirect
and one reference on the second. -/
theorem here_doc_sharing_demo :
    preparse_all
        [⟨"", "EOO", QuoteT.unquoted, false⟩, ⟨"", "EOO", QuoteT.unquoted, false⟩]
        []
      = some [⟨"EOO".data, true, "", '\x00', []⟩] ∧
    exec_add (exec_add [] "EOO".data ⟨0, 0, 1⟩) "EOO".data ⟨0, 0, 2⟩
      = [⟨[⟨0, 0, 1⟩, ⟨0, 0, 2⟩], "EOO".data⟩] ∧
    apply_here_doc "body" ⟨[⟨0, 0, 1⟩, ⟨0, 0, 2⟩], "EOO".data⟩
      = [(⟨0, 0, 1⟩, BodyAssign.owner "body"),
         (⟨0, 0, 2⟩, BodyAssign.ref ⟨0, 0, 1⟩)] := by
  refine ⟨by decide, by decide, by decide⟩

/-- The type of a pre-parsed script line (libbuild2/script line_type); the
conditional kinds carry the value their command evaluates to at execute
time (the exec_if callback outcome). -/
inductive LineKind
  | var
  | cmd
  | cmd_if (c : Bool)
  | cmd_ifn (c : Bool)
  | cmd_elif (c : Bool)
  | cmd_elifn (c : Bool)
  | cmd_else
  | cmd_end
  deriving Repr, DecidableEq

/-- A script line: its kind and an identity used to observe which lines
execute. -/
structure SLine where
  kind : LineKind
  id : Nat
  deriving Repr, DecidableEq

/-- Observable execution events: a variable line executed, a command line
executed with its line index, a conditional tested with its line
index. -/
inductive Event
  | setv (id : Nat)
  | cmd (id : Nat) (li : Nat)
  | condtest (id : Nat) (li : Nat)
  deriving Repr, DecidableEq

/-- The kinds opening a nested construct for the skip counter. -/
def isIfKind : LineKind → Bool
  | LineKind.cmd_if _ | LineKind.cmd_ifn _ => true
  | _ => false

/-- The end kind. -/
def isEndKind : LineKind → Bool
  | LineKind.cmd_end => true
  | _ => false

/-- Whether the scan of the next lambda returns at this line at depth
zero: the if-else kinds only when looking for the next branch, end
always. -/
def retKind (k : LineKind) (endOnly : Bool) : Bool :=
  match k with
  | LineKind.cmd_elif _ | LineKind.cmd_elifn _ | LineKind.cmd_else => !endOnly
  | LineKind.cmd_end => true
  | _ => false

/-- The kinds counted into the line index when skipped (else and end are
not counted). -/
def countsKind : LineKind → Bool
  | LineKind.cmd | LineKind.cmd_if _ | LineKind.cmd_ifn _
  | LineKind.cmd_elif _ | LineKind.cmd_elifn _ => true
  | _ => false

/-- The branch decision of a conditional line: the evaluated condition,
negated for the negated forms, and always true for else. -/
def condTake : LineKind → Option Bool
  | LineKind.cmd_if c => some c
  | LineKind.cmd_ifn c => some (!c)
  | LineKind.cmd_elif c => some c
  | LineKind.cmd_elifn c => some (!c)
  | LineKind.cmd_else => some true
  | _ => none

/-- Whether the conditional line evaluates a command (and hence consumes a
line index): all but else. -/
def condHasTest : LineKind → Bool
  | LineKind.cmd_else => false
  | _ => true

/-- Embedding of the next lambda of exec_lines
(libbuild2/script/parser.cxx:1929-1982) as a list decomposition: scan the
lines maintaining the nesting counter n; return the found line together
with the lines before it, the lines after it and the updated line index
(incremented, when skip is set, for every counted line passed over). -/
def scanSplit (n : Nat) (endOnly skip : Bool) (li : Nat) :
    List SLine → Option (List SLine × SLine × List SLine × Nat)
  | [] => none
  | l :: rest =>
    let n1 := if isIfKind l.kind then n + 1 else n
    if n1 == 0 && retKind l.kind endOnly then some ([], l, rest, li)
    else
      let n2 := if isEndKind l.kind then n1 - 1 else n1
      let li2 := if skip && countsKind l.kind then li + 1 else li
      match scanSplit n2 endOnly skip li2 rest with
      | none => none
      | some (pre, fl, post, li3) => some (l :: pre, fl, post, li3)

/-- The conditional-line part of exec_lines
(libbuild2/script/parser.cxx:1984-2009), abstracted over the recursive
executor: a taken branch executes the lines up to the next if-else
boundary and then jumps over the rest of the construct counting skipped
lines (the boundary line itself uncounted); a branch not taken is skipped
with counting, and execution continues at the found boundary line, or
after it when it is the end line. -/
def condBody (rec : List SLine → Nat → Option (List Event × Nat))
    (take : Bool) (ev0 : List Event) (li1 : Nat) (rest : List SLine) :
    Option (List Event × Nat) :=
  if take then
    match scanSplit 0 false false li1 rest with
    | none => none
    | some (pre, fl, post, _) =>
      match rec pre li1 with
      | none => none
      | some (ev1, li2) =>
        if isEndKind fl.kind then
          (rec post li2).map (fun r => (ev0 ++ ev1 ++ r.1, r.2))
        else
          match scanSplit 0 true true li2 post with
          | none => none
          | some (_, _, post2, li3) =>
            (rec post2 li3).map (fun r => (ev0 ++ ev1 ++ r.1, r.2))
  else
    match scanSplit 0 false true li1 rest with
    | none => none
    | some (_, fl2, post2, li4) =>
      if isEndKind fl2.kind then
        (rec post2 li4).map (fun r => (ev0 ++ r.1, r.2))
      else
        (rec (fl2 :: post2) li4).map (fun r => (ev0 ++ r.1, r.2))

/-- Embedding of exec_lines (libbuild2/script/parser.cxx:1832-2033) over a
line segment, fuelled for termination.  A variable line runs exec_set, a
command line runs exec_cmd consuming a line index, a conditional line
evaluates its decision consuming a line index (except else) and proceeds
per condBody.  An end line reached directly, a missing end, or exhausted
fuel give none. -/
def execL (fuel : Nat) (ls : List SLine) (li : Nat) : Option (List Event × Nat) :=
  match fuel with
  | 0 => none
  | fuel + 1 =>
    match ls with
    | [] => some ([], li)
    | l :: rest =>
      match l.kind with
      | LineKind.var =>
        (execL fuel rest li).map (fun r => (Event.setv l.id :: r.1, r.2))
      | LineKind.cmd =>
        (execL fuel rest (li + 1)).map (fun r => (Event.cmd l.id li :: r.1, r.2))
      | LineKind.cmd_end => none
      | k =>
        match condTake k with
        | none => none
        | some take =>
          condBody (fun ls2 li2 => execL fuel ls2 li2) take
            (if condHasTest k then [Event.condtest l.id li] else [])
            (if condHasTest k then li + 1 else li) rest

mutual
/-- Abstract syntax of a well-formed script fragment: variable lines,
command lines, sequencing, and an if construct with its first branch, a
chain of further branches and its end line. -/
inductive Stmt : Type where
  | svar (id : Nat)
  | scmd (id : Nat)
  | nilS
  | seqS (a b : Stmt)
  | sif (neg : Bool) (c : Bool) (id : Nat) (body : Stmt) (chain : Chain)
        (endId : Nat)

/-- The continuation of an if construct: further elif branches, a final
else branch, or nothing before the end line. -/
inductive Chain : Type where
  | celif (neg : Bool) (c : Bool) (id : Nat) (body : Stmt) (chain : Chain)
  | celse (id : Nat) (body : Stmt)
  | cend
end

mutual
/-- Flatten a fragment into its pre-parsed line list. -/
def flattenS : Stmt → List SLine
  | Stmt.svar id => [⟨LineKind.var, id⟩]
  | Stmt.scmd id => [⟨LineKind.cmd, id⟩]
  | Stmt.nilS => []
  | Stmt.seqS a b => flattenS a ++ flattenS b
  | Stmt.sif neg c id body chain endId =>
    ⟨if neg then LineKind.cmd_ifn c else LineKind.cmd_if c, id⟩ ::
      (flattenS body ++ flattenC chain ++ [⟨LineKind.cmd_end, endId⟩])

/-- Flatten a branch chain into its line list (the end line excluded). -/
def flattenC : Chain → List SLine
  | Chain.celif neg c id body chain =>
    ⟨if neg then LineKind.cmd_elifn c else LineKind.cmd_elif c, id⟩ ::
      (flattenS body ++ flattenC chain)
  | Chain.celse id body => ⟨LineKind.cmd_else, id⟩ :: flattenS body
  | Chain.cend => []
end

mutual
/-- Number of counted lines (command, if, ifn, elif, elifn) in a
fragment. -/
def countS : Stmt → Nat
  | Stmt.svar _ => 0
  | Stmt.scmd _ => 1
  | Stmt.nilS => 0
  | Stmt.seqS a b => countS a + countS b
  | Stmt.sif _ _ _ body chain _ => 1 + countS body + countC chain

/-- Number of counted lines in a branch chain. -/
def countC : Chain → Nat
  | Chain.celif _ _ _ body chain => 1 + countS body + countC chain
  | Chain.celse _ body => countS body
  | Chain.cend => 0
end

/-- Line index gained while jumping from the boundary after a taken branch
to the end line: the boundary line itself is jumped over uncounted, so an
elif boundary loses its own count while an else boundary (never counted)
loses nothing. -/
def skipAfter : Chain → Nat
  | Chain.celif _ _ _ body chain => countS body + countC chain
  | Chain.celse _ body => countS body
  | Chain.cend => 0

mutual
/-- Reference semantics of a fragment (the amended claim): exactly the
first branch whose decision is true executes; every conditional test and
executed command consumes a line index; skipped lines are counted except
the single elif boundary line jumped over after a taken branch. -/
def refS : Stmt → Nat → List Event × Nat
  | Stmt.svar id, li => ([Event.setv id], li)
  | Stmt.scmd id, li => ([Event.cmd id li], li + 1)
  | Stmt.nilS, li => ([], li)
  | Stmt.seqS a b, li =>
    let r1 := refS a li
    let r2 := refS b r1.2
    (r1.1 ++ r2.1, r2.2)
  | Stmt.sif neg c id body chain _, li =>
    let take := if neg then !c else c
    if take then
      let r := refS body (li + 1)
      (Event.condtest id li :: r.1, r.2 + skipAfter chain)
    else
      let r := refC chain (li + 1 + countS body)
      (Event.condtest id li :: r.1, r.2)

/-- Reference semantics of a branch chain reached because no earlier
branch was taken. -/
def refC : Chain → Nat → List Event × Nat
  | Chain.celif neg c id body chain, li =>
    let take := if neg then !c else c
    if take then
      let r := refS body (li + 1)
      (Event.condtest id li :: r.1, r.2 + skipAfter chain)
    else
      let r := refC chain (li + 1 + countS body)
      (Event.condtest id li :: r.1, r.2)
  | Chain.celse _ body, li => refS body li
  | Chain.cend, li => ([], li)
end

/-- Scanning passes a variable line: no return, no count, counter kept. -/
theorem scan_var (n : Nat) (e sk : Bool) (li id : Nat) (rest : List SLine) :
    scanSplit n e sk li (⟨LineKind.var, id⟩ :: rest)
      = (scanSplit n e sk li rest).map
          (fun r => ((⟨LineKind.var, id⟩ : SLine) :: r.1, r.2)) := by
  cases h : scanSplit n e sk li rest with
  | none => simp [scanSplit, isIfKind, retKind, isEndKind, countsKind, h]
  | some q =>
    rcases q with ⟨pre, fl, post, li3⟩
    simp [scanSplit, isIfKind, retKind, isEndKind, countsKind, h]

/-- Scanning passes a command line: no return, counted when skipping. -/
theorem scan_cmd (n : Nat) (e sk : Bool) (li id : Nat) (rest : List SLine) :
    scanSplit n e sk li (⟨LineKind.cmd, id⟩ :: rest)
      = (scanSplit n e sk (if sk then li + 1 else li) rest).map
          (fun r => ((⟨LineKind.cmd, id⟩ : SLine) :: r.1, r.2)) := by
  cases h : scanSplit n e sk (if sk then li + 1 else li) rest with
  | none => simp [scanSplit, isIfKind, retKind, isEndKind, countsKind, h]
  | some q =>
    rcases q with ⟨pre, fl, post, li3⟩
    simp [scanSplit, isIfKind, retKind, isEndKind, countsKind, h]

/-- Scanning passes an if line: counter incremented, counted when
skipping, never a return point. -/
theorem scan_if (n : Nat) (e sk : Bool) (li : Nat) (c : Bool) (id : Nat)
    (rest : List SLine) :
    scanSplit n e sk li (⟨LineKind.cmd_if c, id⟩ :: rest)
      = (scanSplit (n + 1) e sk (if sk then li + 1 else li) rest).map
          (fun r => ((⟨LineKind.cmd_if c, id⟩ : SLine) :: r.1, r.2)) := by
  cases h : scanSplit (n + 1) e sk (if sk then li + 1 else li) rest with
  | none => simp [scanSplit, isIfKind, retKind, isEndKind, countsKind, h]
  | some q =>
    rcases q with ⟨pre, fl, post, li3⟩
    simp [scanSplit, isIfKind, retKind, isEndKind, countsKind, h]

/-- Scanning passes an ifn line exactly like an if line. -/
theorem scan_ifn (n : Nat) (e sk : Bool) (li : Nat) (c : Bool) (id : Nat)
    (rest : List SLine) :
    scanSplit n e sk li (⟨LineKind.cmd_ifn c, id⟩ :: rest)
      = (scanSplit (n + 1) e sk (if sk then li + 1 else li) rest).map
          (fun r => ((⟨LineKind.cmd_ifn c, id⟩ : SLine) :: r.1, r.2)) := by
  cases h : scanSplit (n + 1) e sk (if sk then li + 1 else li) rest with
  | none => simp [scanSplit, isIfKind, retKind, isEndKind, countsKind, h]
  | some q =>
    rcases q with ⟨pre, fl, post, li3⟩
    simp [scanSplit, isIfKind, retKind, isEndKind, countsKind, h]

/-- Scanning passes an elif line when nested or when only looking for the
end; counted when skipping. -/
theorem scan_elif_pass (n : Nat) (e sk : Bool) (li : Nat) (c : Bool)
    (id : Nat) (rest : List SLine) (h : (n == 0 && !e) = false) :
    scanSplit n e sk li (⟨LineKind.cmd_elif c, id⟩ :: rest)
      = (scanSplit n e sk (if sk then li + 1 else li) rest).map
          (fun r => ((⟨LineKind.cmd_elif c, id⟩ : SLine) :: r.1, r.2)) := by
  cases h2 : scanSplit n e sk (if sk then li + 1 else li) rest with
  | none => simp [scanSplit, isIfKind, retKind, isEndKind, countsKind, h, h2]
  | some q =>
    rcases q with ⟨pre, fl, post, li3⟩
    simp [scanSplit, isIfKind, retKind, isEndKind, countsKind, h, h2]

/-- Scanning passes an elifn line when nested or when only looking for the
end; counted when skipping. -/
theorem scan_elifn_pass (n : Nat) (e sk : Bool) (li : Nat) (c : Bool)
    (id : Nat) (rest : List SLine) (h : (n == 0 && !e) = false) :
    scanSplit n e sk li (⟨LineKind.cmd_elifn c, id⟩ :: rest)
      = (scanSplit n e sk (if sk then li + 1 else li) rest).map
          (fun r => ((⟨LineKind.cmd_elifn c, id⟩ : SLine) :: r.1, r.2)) := by
  cases h2 : scanSplit n e sk (if sk then li + 1 else li) rest with
  | none => simp [scanSplit, isIfKind, retKind, isEndKind, countsKind, h, h2]
  | some q =>
    rcases q with ⟨pre, fl, post, li3⟩
    simp [scanSplit, isIfKind, retKind, isEndKind, countsKind, h, h2]

/-- Scanning passes an else line when nested or when only looking for the
end; never counted. -/
theorem scan_else_pass (n : Nat) (e sk : Bool) (li id : Nat)
    (rest : List SLine) (h : (n == 0 && !e) = false) :
    scanSplit n e sk li (⟨LineKind.cmd_else, id⟩ :: rest)
      = (scanSplit n e sk li rest).map
          (fun r => ((⟨LineKind.cmd_else, id⟩ : SLine) :: r.1, r.2)) := by
  cases h2 : scanSplit n e sk li rest with
  | none => simp [scanSplit, isIfKind, retKind, isEndKind, countsKind, h, h2]
  | some q =>
    rcases q with ⟨pre, fl, post, li3⟩
    simp [scanSplit, isIfKind, retKind, isEndKind, countsKind, h, h2]

/-- Scanning passes a nested end line: counter decremented, never
counted. -/
theorem scan_end_pass (n : Nat) (e sk : Bool) (li id : Nat)
    (rest : List SLine) (h : (n == 0) = false) :
    scanSplit n e sk li (⟨LineKind.cmd_end, id⟩ :: rest)
      = (scanSplit (n - 1) e sk li rest).map
          (fun r => ((⟨LineKind.cmd_end, id⟩ : SLine) :: r.1, r.2)) := by
  cases h2 : scanSplit (n - 1) e sk li rest with
  | none => simp [scanSplit, isIfKind, retKind, isEndKind, countsKind, h, h2]
  | some q =>
    rcases q with ⟨pre, fl, post, li3⟩
    simp [scanSplit, isIfKind, retKind, isEndKind, countsKind, h, h2]

/-- At depth zero, looking for the next if-else boundary, an elif line is
returned. -/
theorem scan_elif_ret (sk : Bool) (li : Nat) (c : Bool) (id : Nat)
    (rest : List SLine) :
    scanSplit 0 false sk li (⟨LineKind.cmd_elif c, id⟩ :: rest)
      = some ([], ⟨LineKind.cmd_elif c, id⟩, rest, li) := by
  simp [scanSplit, isIfKind, retKind]

/-- At depth zero, looking for the next if-else boundary, an elifn line is
returned. -/
theorem scan_elifn_ret (sk : Bool) (li : Nat) (c : Bool) (id : Nat)
    (rest : List SLine) :
    scanSplit 0 false sk li (⟨LineKind.cmd_elifn c, id⟩ :: rest)
      = some ([], ⟨LineKind.cmd_elifn c, id⟩, rest, li) := by
  simp [scanSplit, isIfKind, retKind]

/-- At depth zero, looking for the next if-else boundary, an else line is
returned. -/
theorem scan_else_ret (sk : Bool) (li id : Nat) (rest : List SLine) :
    scanSplit 0 false sk li (⟨LineKind.cmd_else, id⟩ :: rest)
      = some ([], ⟨LineKind.cmd_else, id⟩, rest, li) := by
  simp [scanSplit, isIfKind, retKind]

/-- At depth zero an end line is always returned. -/
theorem scan_end_ret (e sk : Bool) (li id : Nat) (rest : List SLine) :
    scanSplit 0 e sk li (⟨LineKind.cmd_end, id⟩ :: rest)
      = some ([], ⟨LineKind.cmd_end, id⟩, rest, li) := by
  simp [scanSplit, isIfKind, retKind]

mutual
/-- The scan of the next lambda passes over the flattened lines of any
well-formed fragment without returning, from any nesting depth: the
counter comes back to its initial value and, when skipping, the line index
gains exactly the number of counted lines of the fragment. -/
theorem scanS : ∀ (s : Stmt) (n : Nat) (e sk : Bool) (li : Nat)
    (tail : List SLine),
    scanSplit n e sk li (flattenS s ++ tail)
      = (scanSplit n e sk (li + (if sk then countS s else 0)) tail).map
          (fun r => (flattenS s ++ r.1, r.2))
  | Stmt.svar id, n, e, sk, li, tail => by
    cases h : scanSplit n e sk li tail with
    | none => simp [flattenS, countS, List.singleton_append, scan_var, h]
    | some q =>
      rcases q with ⟨pre, fl, post, li3⟩
      simp [flattenS, countS, List.singleton_append, scan_var, h]
  | Stmt.scmd id, n, e, sk, li, tail => by
    have harith : (if sk = true then li + 1 else li) = li + (if sk = true then 1 else 0) := by
      cases sk <;> simp
    rw [show flattenS (Stmt.scmd id) ++ tail = ⟨LineKind.cmd, id⟩ :: tail from rfl,
      scan_cmd, harith]
    cases h : scanSplit n e sk (li + (if sk = true then 1 else 0)) tail with
    | none => simp [flattenS, countS, h]
    | some q =>
      rcases q with ⟨pre, fl, post, li3⟩
      simp [flattenS, countS, List.singleton_append, h]
  | Stmt.nilS, n, e, sk, li, tail => by
    cases h : scanSplit n e sk li tail with
    | none => simp [flattenS, countS, h]
    | some q =>
      rcases q with ⟨pre, fl, post, li3⟩
      simp [flattenS, countS, h]
  | Stmt.seqS a b, n, e, sk, li, tail => by
    have ha := scanS a n e sk li (flattenS b ++ tail)
    have hb := scanS b n e sk (li + (if sk then countS a else 0)) tail
    have harith : li + (if sk then countS a else 0) + (if sk then countS b else 0)
        = li + (if sk then countS a + countS b else 0) := by
      cases sk <;> simp <;> omega
    simp only [flattenS, countS, List.append_assoc]
    rw [ha, hb, harith]
    cases h : scanSplit n e sk (li + (if sk then countS a + countS b else 0)) tail with
    | none => simp
    | some q =>
      rcases q with ⟨pre, fl, post, li3⟩
      simp [List.append_assoc]
  | Stmt.sif neg c id body chain endId, n, e, sk, li, tail => by
    have hb := scanS body (n + 1) e sk (if sk then li + 1 else li)
      (flattenC chain ++ (⟨LineKind.cmd_end, endId⟩ :: tail))
    have hc := scanC chain n e sk
      ((if sk then li + 1 else li) + (if sk then countS body else 0))
      (⟨LineKind.cmd_end, endId⟩ :: tail)
    have he := scan_end_pass (n + 1) e sk
      ((if sk then li + 1 else li) + (if sk then countS body else 0)
        + (if sk then countC chain else 0)) endId tail (by simp)
    have harith : (if sk then li + 1 else li) + (if sk then countS body else 0)
        + (if sk then countC chain else 0)
        = li + (if sk then 1 + countS body + countC chain else 0) := by
      cases sk <;> simp <;> omega
    cases neg with
    | false =>
      simp only [flattenS, countS, Bool.false_eq_true, if_false,
        List.cons_append, List.append_assoc, List.singleton_append,
        List.nil_append]
      rw [scan_if, hb, hc, he, Nat.add_sub_cancel, harith]
      cases h : scanSplit n e sk
          (li + (if sk then 1 + countS body + countC chain else 0)) tail with
      | none => simp
      | some q =>
        rcases q with ⟨pre, fl, post, li3⟩
        simp [List.append_assoc]
    | true =>
      simp only [flattenS, countS, if_true, List.cons_append,
        List.append_assoc, List.singleton_append, List.nil_append]
      rw [scan_ifn, hb, hc, he, Nat.add_sub_cancel, harith]
      cases h : scanSplit n e sk
          (li + (if sk then 1 + countS body + countC chain else 0)) tail with
      | none => simp
      | some q =>
        rcases q with ⟨pre, fl, post, li3⟩
        simp [List.append_assoc]

/-- The scan passes over the flattened lines of a branch chain from any
positive nesting depth, gaining (when skipping) its counted lines. -/
theorem scanC : ∀ (ch : Chain) (n : Nat) (e sk : Bool) (li : Nat)
    (tail : List SLine),
    scanSplit (n + 1) e sk li (flattenC ch ++ tail)
      = (scanSplit (n + 1) e sk (li + (if sk then countC ch else 0)) tail).map
          (fun r => (flattenC ch ++ r.1, r.2))
  | Chain.celif neg c id body chain, n, e, sk, li, tail => by
    have hb := scanS body (n + 1) e sk (if sk then li + 1 else li)
      (flattenC chain ++ tail)
    have hc := scanC chain n e sk
      ((if sk then li + 1 else li) + (if sk then countS body else 0)) tail
    have harith : (if sk then li + 1 else li) + (if sk then countS body else 0)
        + (if sk then countC chain else 0)
        = li + (if sk then 1 + countS body + countC chain else 0) := by
      cases sk <;> simp <;> omega
    cases neg with
    | false =>
      simp only [flattenC, countC, Bool.false_eq_true, if_false,
        List.cons_append, List.append_assoc]
      rw [scan_elif_pass _ _ _ _ _ _ _ (by simp), hb, hc, harith]
      cases h : scanSplit (n + 1) e sk
          (li + (if sk then 1 + countS body + countC chain else 0)) tail with
      | none => simp
      | some q =>
        rcases q with ⟨pre, fl, post, li3⟩
        simp [List.append_assoc]
    | true =>
      simp only [flattenC, countC, if_true, List.cons_append,
        List.append_assoc]
      rw [scan_elifn_pass _ _ _ _ _ _ _ (by simp), hb, hc, harith]
      cases h : scanSplit (n + 1) e sk
          (li + (if sk then 1 + countS body + countC chain else 0)) tail with
      | none => simp
      | some q =>
        rcases q with ⟨pre, fl, post, li3⟩
        simp [List.append_assoc]
  | Chain.celse id body, n, e, sk, li, tail => by
    have hb := scanS body (n + 1) e sk li tail
    simp only [flattenC, countC, List.cons_append, List.append_assoc]
    rw [scan_else_pass _ _ _ _ _ _ (by simp), hb]
    cases h : scanSplit (n + 1) e sk (li + (if sk then countS body else 0)) tail with
    | none => simp
    | some q =>
      rcases q with ⟨pre, fl, post, li3⟩
      simp [List.append_assoc]
  | Chain.cend, n, e, sk, li, tail => by
    cases h : scanSplit (n + 1) e sk li tail with
    | none => simp [flattenC, countC, h]
    | some q =>
      rcases q with ⟨pre, fl, post, li3⟩
      simp [flattenC, countC, h]
end

/-- Searching for the end line with skip counting from depth zero passes
the whole branch chain, counting its counted lines, and returns the end
line. -/
theorem scanEndC : ∀ (ch : Chain) (li eid : Nat) (tail : List SLine),
    scanSplit 0 true true li (flattenC ch ++ ⟨LineKind.cmd_end, eid⟩ :: tail)
      = some (flattenC ch, ⟨LineKind.cmd_end, eid⟩, tail, li + countC ch)
  | Chain.celif neg c id body chain, li, eid, tail => by
    have hb := scanS body 0 true true (li + 1)
      (flattenC chain ++ ⟨LineKind.cmd_end, eid⟩ :: tail)
    have hrec := scanEndC chain (li + 1 + countS body) eid tail
    cases neg with
    | false =>
      simp only [flattenC, countC, Bool.false_eq_true, if_false,
        List.cons_append, List.append_assoc]
      rw [scan_elif_pass _ _ _ _ _ _ _ (by simp)]
      simp only [eq_self_iff_true, if_true] at hb ⊢
      rw [hb, hrec]
      simp [List.append_assoc]
      omega
    | true =>
      simp only [flattenC, countC, if_true, List.cons_append,
        List.append_assoc]
      rw [scan_elifn_pass _ _ _ _ _ _ _ (by simp)]
      simp only [eq_self_iff_true, if_true] at hb ⊢
      rw [hb, hrec]
      simp [List.append_assoc]
      omega
  | Chain.celse id body, li, eid, tail => by
    have hb := scanS body 0 true true li (⟨LineKind.cmd_end, eid⟩ :: tail)
    simp only [flattenC, countC, List.cons_append, List.append_assoc]
    rw [scan_else_pass _ _ _ _ _ _ (by simp)]
    simp only [eq_self_iff_true, if_true] at hb
    rw [hb, scan_end_ret]
    simp [List.append_assoc]
  | Chain.cend, li, eid, tail => by
    simp [flattenC, countC, scan_end_ret]

/-- Success of condBody is preserved when the recursive executor is
replaced by one that succeeds at least as often. -/
theorem condBody_mono (rec rec2 : List SLine → Nat → Option (List Event × Nat))
    (hrec : ∀ ls li r, rec ls li = some r → rec2 ls li = some r)
    (take : Bool) (ev0 : List Event) (li1 : Nat) (rest : List SLine)
    (r : List Event × Nat)
    (h : condBody rec take ev0 li1 rest = some r) :
    condBody rec2 take ev0 li1 rest = some r := by
  cases take with
  | false =>
    unfold condBody at h ⊢
    rw [if_neg (by simp)] at h ⊢
    cases h1 : scanSplit 0 false true li1 rest with
    | none => rw [h1] at h; simp at h
    | some q =>
      rcases q with ⟨pre2, fl2, post2, li4⟩
      rw [h1] at h
      dsimp only at h ⊢
      cases hend : isEndKind fl2.kind with
      | true =>
        simp only [hend, eq_self_iff_true, if_true] at h ⊢
        cases h2 : rec post2 li4 with
        | none => rw [h2] at h; simp at h
        | some r2 => rw [hrec _ _ _ h2]; rw [h2] at h; exact h
      | false =>
        simp only [hend, Bool.false_eq_true, if_false] at h ⊢
        cases h2 : rec (fl2 :: post2) li4 with
        | none => rw [h2] at h; simp at h
        | some r2 => rw [hrec _ _ _ h2]; rw [h2] at h; exact h
  | true =>
    unfold condBody at h ⊢
    rw [if_pos rfl] at h ⊢
    cases h1 : scanSplit 0 false false li1 rest with
    | none => rw [h1] at h; simp at h
    | some q =>
      rcases q with ⟨pre, fl, post, x⟩
      rw [h1] at h
      dsimp only at h ⊢
      cases h2 : rec pre li1 with
      | none => rw [h2] at h; simp at h
      | some r1 =>
        rcases r1 with ⟨ev1, li2⟩
        rw [hrec _ _ _ h2]
        rw [h2] at h
        dsimp only at h ⊢
        cases hend : isEndKind fl.kind with
        | true =>
          simp only [hend, eq_self_iff_true, if_true] at h ⊢
          cases h3 : rec post li2 with
          | none => rw [h3] at h; simp at h
          | some r2 => rw [hrec _ _ _ h3]; rw [h3] at h; exact h
        | false =>
          simp only [hend, Bool.false_eq_true, if_false] at h ⊢
          cases h4 : scanSplit 0 true true li2 post with
          | none => rw [h4] at h; simp at h
          | some q2 =>
            rcases q2 with ⟨u, v, post2, li3⟩
            rw [h4] at h
            dsimp only at h ⊢
            cases h5 : rec post2 li3 with
            | none => rw [h5] at h; simp at h
            | some r2 => rw [hrec _ _ _ h5]; rw [h5] at h; exact h

/-- More fuel never turns a successful execution into a failure: execL is
monotone in its fuel. -/
theorem execL_mono : ∀ (f f2 : Nat), f ≤ f2 →
    ∀ (ls : List SLine) (li : Nat) (r : List Event × Nat),
    execL f ls li = some r → execL f2 ls li = some r
  | 0, _, _, ls, li, r => by intro h; simp [execL] at h
  | f + 1, 0, hle, ls, li, r => absurd hle (by omega)
  | f + 1, f2 + 1, hle, ls, li, r => by
    intro h
    have IH : ∀ ls2 li2 r2, execL f ls2 li2 = some r2 → execL f2 ls2 li2 = some r2 :=
      fun ls2 li2 r2 => execL_mono f f2 (by omega) ls2 li2 r2
    cases ls with
    | nil => simpa [execL] using h
    | cons l rest =>
      obtain ⟨k, id⟩ := l
      cases k with
      | var =>
        simp only [execL] at h ⊢
        cases h2 : execL f rest li with
        | none => rw [h2] at h; exact absurd h (by simp)
        | some r2 => rw [IH _ _ _ h2]; rw [h2] at h; exact h
      | cmd =>
        simp only [execL] at h ⊢
        cases h2 : execL f rest (li + 1) with
        | none => rw [h2] at h; exact absurd h (by simp)
        | some r2 => rw [IH _ _ _ h2]; rw [h2] at h; exact h
      | cmd_end => simp [execL] at h
      | cmd_if c =>
        simp only [execL, condTake, condHasTest] at h ⊢
        exact condBody_mono _ _ IH _ _ _ _ _ h
      | cmd_ifn c =>
        simp only [execL, condTake, condHasTest] at h ⊢
        exact condBody_mono _ _ IH _ _ _ _ _ h
      | cmd_elif c =>
        simp only [execL, condTake, condHasTest] at h ⊢
        exact condBody_mono _ _ IH _ _ _ _ _ h
      | cmd_elifn c =>
        simp only [execL, condTake, condHasTest] at h ⊢
        exact condBody_mono _ _ IH _ _ _ _ _ h
      | cmd_else =>
        simp only [execL, condTake, condHasTest] at h ⊢
        exact condBody_mono _ _ IH _ _ _ _ _ h

/-- Whether a branch chain begins with an actual branch line. -/
def Chain.headed : Chain → Bool
  | Chain.cend => false
  | _ => true

/-- Taken-branch simulation: when the decision is true, condBody executes
the branch body up to the boundary, then jumps to the end line counting
the skipped lines except the boundary line itself, and continues with the
tail. -/
theorem condBody_simT (body : Stmt) (chain : Chain) (eid : Nat)
    (tail : List SLine) (li1 : Nat) (ev0 : List Event) (f : Nat)
    (r : List Event × Nat)
    (IHbody : ∀ (tail2 : List SLine) (li2 f2 : Nat) (r2 : List Event × Nat),
      execL f2 tail2 (refS body li2).2 = some r2 →
      ∃ g, execL g (flattenS body ++ tail2) li2
        = some ((refS body li2).1 ++ r2.1, r2.2))
    (hyp : execL f tail ((refS body li1).2 + skipAfter chain) = some r) :
    ∃ g, condBody (fun ls2 li2 => execL g ls2 li2) true ev0 li1
        (flattenS body ++ flattenC chain ++ ⟨LineKind.cmd_end, eid⟩ :: tail)
      = some (ev0 ++ (refS body li1).1 ++ r.1, r.2) := by
  obtain ⟨g1, hg1⟩ := IHbody [] li1 1 ([], (refS body li1).2) rfl
  simp only [List.append_nil] at hg1
  refine ⟨max g1 f, ?_⟩
  have hbody : execL (max g1 f) (flattenS body) li1
      = some ((refS body li1).1, (refS body li1).2) :=
    execL_mono g1 (max g1 f) (le_max_left _ _) _ _ _ hg1
  have htail : execL (max g1 f) tail ((refS body li1).2 + skipAfter chain)
      = some r :=
    execL_mono f (max g1 f) (le_max_right _ _) _ _ _ hyp
  unfold condBody
  rw [if_pos rfl]
  have hs1 := scanS body 0 false false li1
    (flattenC chain ++ ⟨LineKind.cmd_end, eid⟩ :: tail)
  simp only [Bool.false_eq_true, if_false, Nat.add_zero] at hs1
  rw [List.append_assoc, hs1]
  cases chain with
  | cend =>
    simp only [flattenC, List.nil_append, scan_end_ret, Option.map_some',
      List.append_nil]
    rw [hbody]
    dsimp only
    simp only [isEndKind, eq_self_iff_true, if_true]
    simp only [skipAfter, Nat.add_zero] at htail
    rw [htail]
    simp
  | celif neg2 c2 id2 body2 chain2 =>
    have hs2 := scanS body2 0 true true (refS body li1).2
      (flattenC chain2 ++ ⟨LineKind.cmd_end, eid⟩ :: tail)
    simp only [eq_self_iff_true, if_true] at hs2
    have hs3 := scanEndC chain2 ((refS body li1).2 + countS body2) eid tail
    simp only [skipAfter] at htail
    rw [← Nat.add_assoc] at htail
    cases neg2 with
    | false =>
      simp only [flattenC, Bool.false_eq_true, if_false, List.cons_append,
        List.append_assoc, scan_elif_ret, Option.map_some', List.append_nil]
      rw [hbody]
      dsimp only
      simp only [isEndKind, Bool.false_eq_true, if_false]
      rw [hs2, hs3]
      simp only [Option.map_some']
      rw [htail]
      simp
    | true =>
      simp only [flattenC, if_true, List.cons_append,
        List.append_assoc, scan_elifn_ret, Option.map_some', List.append_nil]
      rw [hbody]
      dsimp only
      simp only [isEndKind, Bool.false_eq_true, if_false]
      rw [hs2, hs3]
      simp only [Option.map_some']
      rw [htail]
      simp
  | celse id2 body2 =>
    have hs2 := scanS body2 0 true true (refS body li1).2
      (⟨LineKind.cmd_end, eid⟩ :: tail)
    simp only [eq_self_iff_true, if_true] at hs2
    simp only [skipAfter] at htail
    simp only [flattenC, List.cons_append, List.append_assoc, scan_else_ret,
      Option.map_some', List.append_nil]
    rw [hbody]
    dsimp only
    simp only [isEndKind, Bool.false_eq_true, if_false]
    rw [hs2, scan_end_ret]
    simp only [Option.map_some']
    rw [htail]
    simp

/-- Untaken-branch simulation: when the decision is false, condBody skips
the branch body with counting and continues either at the found boundary
branch line or, when the construct has no further branch, after its end
line. -/
theorem condBody_simF (body : Stmt) (chain : Chain) (eid : Nat)
    (tail : List SLine) (li1 : Nat) (ev0 : List Event) (f : Nat)
    (r : List Event × Nat)
    (IHchain : ∀ (tail2 : List SLine) (li2 f2 : Nat) (r2 : List Event × Nat),
      Chain.headed chain = true →
      execL f2 tail2 (refC chain li2).2 = some r2 →
      ∃ g, execL g (flattenC chain ++ ⟨LineKind.cmd_end, eid⟩ :: tail2) li2
        = some ((refC chain li2).1 ++ r2.1, r2.2))
    (hyp : execL f tail (refC chain (li1 + countS body)).2 = some r) :
    ∃ g, condBody (fun ls2 li2 => execL g ls2 li2) false ev0 li1
        (flattenS body ++ flattenC chain ++ ⟨LineKind.cmd_end, eid⟩ :: tail)
      = some (ev0 ++ (refC chain (li1 + countS body)).1 ++ r.1, r.2) := by
  have hs1 := scanS body 0 false true li1
    (flattenC chain ++ ⟨LineKind.cmd_end, eid⟩ :: tail)
  simp only [eq_self_iff_true, if_true] at hs1
  cases chain with
  | cend =>
    simp only [refC] at hyp ⊢
    refine ⟨f, ?_⟩
    unfold condBody
    rw [if_neg (by simp)]
    rw [List.append_assoc, hs1]
    simp only [flattenC, List.nil_append, scan_end_ret, Option.map_some',
      List.append_nil]
    simp only [isEndKind, eq_self_iff_true, if_true]
    rw [hyp]
    simp
  | celif neg2 c2 id2 body2 chain2 =>
    obtain ⟨g1, hg1⟩ := IHchain tail (li1 + countS body) f r (by rfl) hyp
    refine ⟨g1, ?_⟩
    unfold condBody
    rw [if_neg (by simp)]
    rw [List.append_assoc, hs1]
    cases neg2 with
    | false =>
      simp only [flattenC, Bool.false_eq_true, if_false, List.cons_append,
        List.append_assoc, scan_elif_ret, Option.map_some']
      simp only [isEndKind, Bool.false_eq_true, if_false]
      rw [show (⟨LineKind.cmd_elif c2, id2⟩ : SLine) ::
          (flattenS body2 ++ (flattenC chain2 ++ ⟨LineKind.cmd_end, eid⟩ :: tail))
        = flattenC (Chain.celif false c2 id2 body2 chain2)
            ++ ⟨LineKind.cmd_end, eid⟩ :: tail by
          simp [flattenC, List.append_assoc]]
      rw [hg1]
      simp
    | true =>
      simp only [flattenC, if_true, List.cons_append,
        List.append_assoc, scan_elifn_ret, Option.map_some']
      simp only [isEndKind, Bool.false_eq_true, if_false]
      rw [show (⟨LineKind.cmd_elifn c2, id2⟩ : SLine) ::
          (flattenS body2 ++ (flattenC chain2 ++ ⟨LineKind.cmd_end, eid⟩ :: tail))
        = flattenC (Chain.celif true c2 id2 body2 chain2)
            ++ ⟨LineKind.cmd_end, eid⟩ :: tail by
          simp [flattenC, List.append_assoc]]
      rw [hg1]
      simp
  | celse id2 body2 =>
    obtain ⟨g1, hg1⟩ := IHchain tail (li1 + countS body) f r (by rfl) hyp
    refine ⟨g1, ?_⟩
    unfold condBody
    rw [if_neg (by simp)]
    rw [List.append_assoc, hs1]
    simp only [flattenC, List.cons_append, List.append_assoc, scan_else_ret,
      Option.map_some']
    simp only [isEndKind, Bool.false_eq_true, if_false]
    rw [show (⟨LineKind.cmd_else, id2⟩ : SLine) ::
        (flattenS body2 ++ ⟨LineKind.cmd_end, eid⟩ :: tail)
      = flattenC (Chain.celse id2 body2) ++ ⟨LineKind.cmd_end, eid⟩ :: tail by
        simp [flattenC, List.append_assoc]]
    rw [hg1]
    simp

mutual
/-- Compositional simulation: executing the flattened lines of a fragment
followed by any continuation behaves as the reference semantics of the
fragment followed by the continuation run at the resulting line index. -/
theorem execL_sim : ∀ (s : Stmt) (tail : List SLine) (li f : Nat)
    (r : List Event × Nat),
    execL f tail (refS s li).2 = some r →
    ∃ g, execL g (flattenS s ++ tail) li = some ((refS s li).1 ++ r.1, r.2)
  | Stmt.svar id, tail, li, f, r => by
    intro h
    simp only [refS] at h
    refine ⟨f + 1, ?_⟩
    simp only [flattenS, refS, List.cons_append, List.nil_append,
      List.singleton_append]
    simp only [execL]
    rw [h]
    simp
  | Stmt.scmd id, tail, li, f, r => by
    intro h
    simp only [refS] at h
    refine ⟨f + 1, ?_⟩
    simp only [flattenS, refS, List.cons_append, List.nil_append,
      List.singleton_append]
    simp only [execL]
    rw [h]
    simp
  | Stmt.nilS, tail, li, f, r => by
    intro h
    simp only [refS] at h
    refine ⟨f, ?_⟩
    simpa [flattenS, refS] using h
  | Stmt.seqS a b, tail, li, f, r => by
    intro h
    simp only [refS] at h
    obtain ⟨g1, hg1⟩ := execL_sim b tail (refS a li).2 f r h
    obtain ⟨g2, hg2⟩ := execL_sim a (flattenS b ++ tail) li g1
      ((refS b (refS a li).2).1 ++ r.1, r.2) hg1
    refine ⟨g2, ?_⟩
    simp only [flattenS, refS, List.append_assoc]
    simpa [List.append_assoc] using hg2
  | Stmt.sif neg c id body chain endId, tail, li, f, r => by
    intro h
    cases neg with
    | false =>
      cases c with
      | true =>
        simp only [refS, Bool.false_eq_true, if_false, eq_self_iff_true,
          if_true] at h
        obtain ⟨G, hG⟩ := condBody_simT body chain endId tail (li + 1)
          [Event.condtest id li] f r
          (fun t2 l2 f2 r2 hh => execL_sim body t2 l2 f2 r2 hh) h
        refine ⟨G + 1, ?_⟩
        simp only [flattenS, Bool.false_eq_true, if_false, List.cons_append,
          List.append_assoc, List.singleton_append, List.nil_append]
        simp only [execL, condTake, condHasTest, eq_self_iff_true, if_true]
        rw [← List.append_assoc, hG]
        simp [refS]
      | false =>
        simp only [refS, Bool.false_eq_true, if_false] at h
        obtain ⟨G, hG⟩ := condBody_simF body chain endId tail (li + 1)
          [Event.condtest id li] f r
          (fun t2 l2 f2 r2 hh hexec => execC_sim chain endId t2 l2 f2 r2 hh hexec) h
        refine ⟨G + 1, ?_⟩
        simp only [flattenS, Bool.false_eq_true, if_false, List.cons_append,
          List.append_assoc, List.singleton_append, List.nil_append]
        simp only [execL, condTake, condHasTest, eq_self_iff_true, if_true]
        rw [← List.append_assoc, hG]
        simp [refS]
    | true =>
      cases c with
      | false =>
        simp only [refS, if_true, Bool.not_false, eq_self_iff_true] at h
        obtain ⟨G, hG⟩ := condBody_simT body chain endId tail (li + 1)
          [Event.condtest id li] f r
          (fun t2 l2 f2 r2 hh => execL_sim body t2 l2 f2 r2 hh) h
        refine ⟨G + 1, ?_⟩
        simp only [flattenS, if_true, List.cons_append,
          List.append_assoc, List.singleton_append, List.nil_append]
        simp only [execL, condTake, condHasTest, eq_self_iff_true, if_true,
          Bool.not_false]
        rw [← List.append_assoc, hG]
        simp [refS]
      | true =>
        simp only [refS, if_true, Bool.not_true, Bool.false_eq_true,
          if_false] at h
        obtain ⟨G, hG⟩ := condBody_simF body chain endId tail (li + 1)
          [Event.condtest id li] f r
          (fun t2 l2 f2 r2 hh hexec => execC_sim chain endId t2 l2 f2 r2 hh hexec) h
        refine ⟨G + 1, ?_⟩
        simp only [flattenS, if_true, List.cons_append,
          List.append_assoc, List.singleton_append, List.nil_append]
        simp only [execL, condTake, condHasTest, eq_self_iff_true, if_true,
          Bool.not_true]
        rw [← List.append_assoc, hG]
        simp [refS]

/-- Compositional simulation for a branch chain reached at its first
line (which exists when the chain is headed): execution continues per the
chain reference semantics and then with the continuation after the end
line. -/
theorem execC_sim : ∀ (ch : Chain) (eid : Nat) (tail : List SLine)
    (li f : Nat) (r : List Event × Nat),
    Chain.headed ch = true →
    execL f tail (refC ch li).2 = some r →
    ∃ g, execL g (flattenC ch ++ ⟨LineKind.cmd_end, eid⟩ :: tail) li
      = some ((refC ch li).1 ++ r.1, r.2)
  | Chain.celif neg c id body chain, eid, tail, li, f, r => by
    intro _ h
    cases neg with
    | false =>
      cases c with
      | true =>
        simp only [refC, Bool.false_eq_true, if_false, eq_self_iff_true,
          if_true] at h
        obtain ⟨G, hG⟩ := condBody_simT body chain eid tail (li + 1)
          [Event.condtest id li] f r
          (fun t2 l2 f2 r2 hh => execL_sim body t2 l2 f2 r2 hh) h
        refine ⟨G + 1, ?_⟩
        simp only [flattenC, Bool.false_eq_true, if_false, List.cons_append,
          List.append_assoc, List.singleton_append, List.nil_append]
        simp only [execL, condTake, condHasTest, eq_self_iff_true, if_true]
        rw [← List.append_assoc, hG]
        simp [refC]
      | false =>
        simp only [refC, Bool.false_eq_true, if_false] at h
        obtain ⟨G, hG⟩ := condBody_simF body chain eid tail (li + 1)
          [Event.condtest id li] f r
          (fun t2 l2 f2 r2 hh hexec => execC_sim chain eid t2 l2 f2 r2 hh hexec) h
        refine ⟨G + 1, ?_⟩
        simp only [flattenC, Bool.false_eq_true, if_false, List.cons_append,
          List.append_assoc, List.singleton_append, List.nil_append]
        simp only [execL, condTake, condHasTest, eq_self_iff_true, if_true]
        rw [← List.append_assoc, hG]
        simp [refC]
    | true =>
      cases c with
      | false =>
        simp only [refC, if_true, Bool.not_false, eq_self_iff_true] at h
        obtain ⟨G, hG⟩ := condBody_simT body chain eid tail (li + 1)
          [Event.condtest id li] f r
          (fun t2 l2 f2 r2 hh => execL_sim body t2 l2 f2 r2 hh) h
        refine ⟨G + 1, ?_⟩
        simp only [flattenC, if_true, List.cons_append,
          List.append_assoc, List.singleton_append, List.nil_append]
        simp only [execL, condTake, condHasTest, eq_self_iff_true, if_true,
          Bool.not_false]
        rw [← List.append_assoc, hG]
        simp [refC]
      | true =>
        simp only [refC, if_true, Bool.not_true, Bool.false_eq_true,
          if_false] at h
        obtain ⟨G, hG⟩ := condBody_simF body chain eid tail (li + 1)
          [Event.condtest id li] f r
          (fun t2 l2 f2 r2 hh hexec => execC_sim chain eid t2 l2 f2 r2 hh hexec) h
        refine ⟨G + 1, ?_⟩
        simp only [flattenC, if_true, List.cons_append,
          List.append_assoc, List.singleton_append, List.nil_append]
        simp only [execL, condTake, condHasTest, eq_self_iff_true, if_true,
          Bool.not_true]
        rw [← List.append_assoc, hG]
        simp [refC]
  | Chain.celse id body, eid, tail, li, f, r => by
    intro _ h
    simp only [refC] at h
    have h2 : execL f tail ((refS body li).2 + skipAfter Chain.cend) = some r := by
      simpa [skipAfter] using h
    obtain ⟨G, hG⟩ := condBody_simT body Chain.cend eid tail li [] f r
      (fun t2 l2 f2 r2 hh => execL_sim body t2 l2 f2 r2 hh) h2
    refine ⟨G + 1, ?_⟩
    simp only [flattenC, List.cons_append, List.append_assoc,
      List.singleton_append, List.nil_append]
    simp only [execL, condTake, condHasTest, Bool.false_eq_true, if_false]
    rw [show (flattenS body ++ ⟨LineKind.cmd_end, eid⟩ :: tail : List SLine)
      = flattenS body ++ flattenC Chain.cend ++ ⟨LineKind.cmd_end, eid⟩ :: tail by
        simp [flattenC]]
    rw [hG]
    simp [refC]
  | Chain.cend, eid, tail, li, f, r => by
    intro hh _
    exact absurd hh (by simp [Chain.headed])
end

/-- C8: executing the flattened lines of any well-formed script fragment
succeeds (given enough fuel) and produces exactly the reference semantics
refS: in every if/elif/else/end construct exactly the first branch whose
decision is true (negated for the ifn/elifn forms, else always taken) has
its lines executed, non-selected branches are skipped by line counting
with nested constructs handled, and the line index li is incremented for
every skipped command, if, ifn, elif and elifn line except the single
boundary elif/elifn line jumped over after a taken branch (skipAfter),
and never for else or end. -/
theorem C8_if_else (prog : Stmt) (li : Nat) :
    ∃ fuel, execL fuel (flattenS prog) li = some (refS prog li) := by
  obtain ⟨g, hg⟩ := execL_sim prog [] li 1 ([], (refS prog li).2) rfl
  refine ⟨g, ?_⟩
  simpa using hg

/-- C8 counterexample: for the construct if true; A; elif true; B; end
started at line index 1 the claim predicts li = 5 after the construct
(one past its 4 counted lines: the if, A, the elif and B), but execution
takes the first branch, runs exactly A, and ends with li = 4: the elif
boundary line the interpreter jumps over after the taken branch is never
counted. -/
theorem C8_counterexample :
    execL 20 (flattenS (Stmt.sif false true 1 (Stmt.scmd 2)
        (Chain.celif false true 3 (Stmt.scmd 4) Chain.cend) 9)) 1
      = some ([Event.condtest 1 1, Event.cmd 2 2], 4)
    ∧ countS (Stmt.sif false true 1 (Stmt.scmd 2)
        (Chain.celif false true 3 (Stmt.scmd 4) Chain.cend) 9) = 4 :=
  ⟨rfl, rfl⟩

end Build2
